import Mathlib

/-! # godocdash: a verification development of `main.go`

A shallow embedding of the crawl pipeline of `main.go` (package discovery,
filter matching, the crawl scheduler, the fetch-retry unit, the link
rewriter, the asset mirror and the output layout) and theorems about it.

Conventions of the embedding.

* A Go `string` is a `Str`, a list of characters.  The strings the program
  handles are hrefs, package names and paths: text, on which the byte-wise
  functions of package `strings` and their character-wise embedding agree.
* Functions of the Go standard library (`strings`, `path`, `path/filepath` on
  a slash-separated system) are embedded from their library source and carry
  the library's names.
* What the program does to the outside world (HTTP requests, files, the index,
  sleeping, goroutines) is recorded as a list of events; what the outside
  world answers is a parameter of the embedding.
* The goroutines that `grabPackages` starts run interleaved with it: a crawl is
  a step relation on the rest of the schedule, the events each goroutine still
  has to do and the counter of the `sync.WaitGroup`.
-/

namespace GoDocDash

/-- The embedding of a Go `string`. -/
abbrev Str := List Char

/-- The embedding of a Go `error` value that is not nil: its message. -/
abbrev Error := Str

deriving instance DecidableEq for Except

/-- A string literal as a `Str`. -/
def str (s : String) : Str := s.toList

/-! ## Package `strings` -/

namespace strings

/-- The embedding of `strings.HasPrefix`. -/
def HasPrefix (s pre : Str) : Bool :=
  decide (pre.length ≤ s.length) && decide (s.take pre.length = pre)

/-- The embedding of `strings.HasSuffix`. -/
def HasSuffix (s suffix : Str) : Bool :=
  decide (suffix.length ≤ s.length) && decide (s.drop (s.length - suffix.length) = suffix)

/-- The embedding of `strings.TrimPrefix`. -/
def TrimPrefix (s pre : Str) : Str :=
  if HasPrefix s pre then s.drop pre.length else s

/-- The embedding of `strings.TrimSuffix`. -/
def TrimSuffix (s suffix : Str) : Str :=
  if HasSuffix s suffix then s.take (s.length - suffix.length) else s

/-- The embedding of `strings.Contains`: some position of `s` starts a copy of `substr`. -/
def Contains : Str → Str → Bool
  | [], substr => HasPrefix [] substr
  | c :: s, substr => HasPrefix (c :: s) substr || Contains s substr

/-- The embedding of `strings.TrimLeft` for a cutset of one character. -/
def TrimLeft (s : Str) (cut : Char) : Str :=
  s.dropWhile (fun c => c == cut)

/-- The embedding of `strings.TrimRight` for a cutset of one character. -/
def TrimRight (s : Str) (cut : Char) : Str :=
  (s.reverse.dropWhile (fun c => c == cut)).reverse

/-- The embedding of `unicode.IsSpace`. -/
def isSpace (c : Char) : Bool :=
  let n := c.toNat
  n == 0x09 || n == 0x0A || n == 0x0B || n == 0x0C || n == 0x0D || n == 0x20 ||
    n == 0x85 || n == 0xA0 || n == 0x1680 || (decide (0x2000 ≤ n) && decide (n ≤ 0x200A)) ||
    n == 0x2028 || n == 0x2029 || n == 0x202F || n == 0x205F || n == 0x3000

/-- The embedding of `strings.TrimSpace`. -/
def TrimSpace (s : Str) : Str :=
  ((s.dropWhile isSpace).reverse.dropWhile isSpace).reverse

end strings

/-! ## Packages `path` and `path/filepath` (slash-separated systems) -/

/-- The state of the loop of `path.Clean`: `out` holds the bytes `buf[0:w]` of the
output buffer, the last one first, and `dotdot` is the index where `..` must stop. -/
structure CleanState where
  out : List Char
  dotdot : Nat
  deriving DecidableEq, Repr

/-- Backtracking in `path.Clean`, on a buffer that is not empty:
`out.w--; for out.w > dotdot && out.index(out.w) != '/' { out.w-- }`. -/
def cleanBacktrack (dotdot : Nat) : List Char → List Char
  | [] => []
  | c :: out => if out.length > dotdot ∧ c ≠ '/' then cleanBacktrack dotdot out else out

/-- The loop `for r < n` of `path.Clean` on the input that is still to be read
(`p` is `path[r:]`).  Every round reads at least one byte, so `p.length` rounds
are enough. -/
def cleanLoop (rooted : Bool) : Nat → Str → CleanState → CleanState
  | 0, _, st => st
  | _, [], st => st
  | fuel + 1, c :: p, st =>
    if c = '/' then
      -- empty path element
      cleanLoop rooted fuel p st
    else if c = '.' ∧ (p = [] ∨ p.head? = some '/') then
      -- . element
      cleanLoop rooted fuel p st
    else if c = '.' ∧ p.head? = some '.' ∧ (p.tail = [] ∨ p.tail.head? = some '/') then
      -- .. element: remove to last /
      let st1 : CleanState :=
        if st.out.length > st.dotdot then
          -- can backtrack
          { st with out := cleanBacktrack st.dotdot st.out }
        else if !rooted then
          -- cannot backtrack, but not rooted, so append .. element.
          let out := '.' :: '.' :: (if st.out.length > 0 then '/' :: st.out else st.out)
          { out := out, dotdot := out.length }
        else
          st
      cleanLoop rooted fuel p.tail st1
    else
      -- real path element: add slash if needed, copy element
      let out :=
        if (rooted && st.out.length != 1) || (!rooted && st.out.length != 0) then
          '/' :: st.out
        else
          st.out
      let element := (c :: p).takeWhile (fun x => x != '/')
      cleanLoop rooted fuel ((c :: p).dropWhile (fun x => x != '/'))
        { st with out := element.reverse ++ out }

namespace path

/-- The embedding of `path.Clean`. -/
def Clean (p : Str) : Str :=
  if p = [] then
    str "."
  else
    let rooted : Bool := p.head? = some '/'
    let st0 : CleanState := if rooted then ⟨['/'], 1⟩ else ⟨[], 0⟩
    let st := cleanLoop rooted p.length (if rooted then p.tail else p) st0
    -- Turn empty string into "."
    if st.out.length = 0 then str "." else st.out.reverse

/-- The buffer that `path.Join` fills: the elements with a `/` between them,
empty elements left out. -/
def joinBuf (buf : Str) : List Str → Str
  | [] => buf
  | e :: elem =>
    if buf.length > 0 ∨ e ≠ [] then
      joinBuf ((if buf.length > 0 then buf ++ ['/'] else buf) ++ e) elem
    else
      joinBuf buf elem

/-- The embedding of `path.Join`. -/
def Join (elem : List Str) : Str :=
  if (elem.map List.length).sum = 0 then [] else Clean (joinBuf [] elem)

/-- The directory part of `path.Split`: the path up to and with its last `/`. -/
def splitDir (p : Str) : Str :=
  (p.reverse.dropWhile (fun c => c != '/')).reverse

/-- The embedding of `path.Dir`. -/
def Dir (p : Str) : Str :=
  Clean (splitDir p)

end path

namespace filepath

/-- The embedding of `filepath.Clean`, which on a slash-separated system is the
algorithm of `path.Clean`. -/
def Clean (p : Str) : Str := path.Clean p

/-- The embedding of `filepath.Join`: the elements from the first one that is not
empty on, joined by `/` and cleaned. -/
def Join : List Str → Str
  | [] => []
  | e :: elem =>
    if e ≠ [] then Clean ((str "/").intercalate (e :: elem)) else Join elem

/-- The embedding of `filepath.Dir`. -/
def Dir (p : Str) : Str :=
  Clean (path.splitDir p)

/-- The loop of `filepath.Rel` that positions both paths at their first differing
elements.  `base` is `base[bi:]` and `targ` is `targ[ti:]` at the head of a round;
the result is `(base[b0:bi], base[b0:], targ[t0:])` after the loop. -/
def relLoop : Nat → Str → Str → Str × Str × Str
  | 0, base, targ => ([], base, targ)
  | fuel + 1, base, targ =>
    if base = [] ∨ targ = [] then
      ([], base, targ)
    else
      let eb := base.takeWhile (fun x => x != '/')
      let et := targ.takeWhile (fun x => x != '/')
      if et ≠ eb then
        (eb, base, targ)
      else
        relLoop fuel (base.drop (eb.length + 1)) (targ.drop (et.length + 1))

/-- The embedding of `filepath.Rel`, from the library source of the time of the
repository.  Later versions of the library differ from it on a target `.` and on a
base with an element `..`; the link rewriter gives it a target that ends in
`.css` or `.js`, and the theorems on it take a base without an element `..`. -/
def Rel (basepath targpath : Str) : Except Error Str :=
  let base := Clean basepath
  let targ := Clean targpath
  if targ = base then
    .ok (str ".")
  else
    let base := if base = str "." then [] else base
    -- Can't use IsAbs - `\a` and `a` are both relative in Windows.
    let baseSlashed : Bool := base.head? = some '/'
    let targSlashed : Bool := targ.head? = some '/'
    if baseSlashed ≠ targSlashed then
      .error (str "Rel: can't make " ++ targpath ++ str " relative to " ++ basepath)
    else
      match relLoop base.length base targ with
      | (elem, b, t) =>
        if elem = str ".." then
          .error (str "Rel: can't make " ++ targpath ++ str " relative to " ++ basepath)
        else if b ≠ [] then
          -- Base elements left. Must go up before going down.
          let seps := b.count '/'
          .ok (str ".." ++ (List.replicate seps (str "/..")).flatten ++
            (if t ≠ [] then '/' :: t else []))
        else
          .ok t

end filepath

/-! ## The outside world -/

/-- The fields of `packageInfo` that `main.go` reads and writes. -/
structure PackageInfo where
  Name : Str
  IsPackage : Bool
  Err : Option Error
  deriving DecidableEq, Repr

/-- What a run does to the outside world, in the order in which it does it. -/
inductive Event where
  /-- `http.Get(url)`. -/
  | httpGet (url : Str)
  /-- `os.MkdirAll(dir, 0755)`. -/
  | mkdirAll (dir : Str)
  /-- `os.Create(p)`. -/
  | create (p : Str)
  /-- `io.Copy(f, r)` into the file created at `p`. -/
  | copy (p : Str) (content : Str)
  /-- `info.WriteInsert(stmt)` for the package `name`. -/
  | writeInsert (name : Str)
  /-- `time.Sleep(time.Second * seconds)`. -/
  | sleep (seconds : Nat)
  /-- `fmt.Println(err)`. -/
  | println (err : Error)
  /-- `info.Print()`. -/
  | print (info : Option PackageInfo)
  /-- `wg.Add(1); go grabPackage(wg, stmt, name, url)`. -/
  | goGrabPackage (name url : Str)
  /-- `wg.Add(1); go grabDirectory(wg, host, relPath)`. -/
  | goGrabDirectory (relPath : Str)
  /-- `wg.Wait()`. -/
  | wait
  /-- `wg.Done()`. -/
  | done
  deriving DecidableEq, Repr

/-- What the file system answers: the error, if any, of each call. -/
structure FileSystem where
  mkdirAll : Str → Option Error
  create : Str → Option Error
  copy : Str → Str → Option Error

/-- A parsed page, as far as `main.go` looks at it: the text of its `h1`
elements, the `href` of its `link` elements and the `src` of its `script`
elements, each in document order (`none`: the attribute is absent). -/
structure Document where
  h1 : List Str
  links : List (Option Str)
  scripts : List (Option Str)
  deriving DecidableEq, Repr

/-- What the outside world answers during one call of `tryGrabPackage`. -/
structure Attempt where
  /-- The error of `http.Get(url)`, if any. -/
  get : Option Error
  /-- The result of `ioutil.ReadAll(resp.Body)`. -/
  readAll : Except Error Str
  /-- The result of `goquery.NewDocumentFromReader`. -/
  parse : Str → Except Error Document
  /-- The result of `goquery.OuterHtml`. -/
  outerHtml : Document → Except Error Str
  /-- The file system during the attempt. -/
  fs : FileSystem
  /-- The error of `info.WriteInsert(stmt)`, if any. -/
  writeInsert : Option Error

/-! ## The output layout -/

/-- The value `main` gives the global `docsetDir`. -/
def docsetDirOf (output name : Str) : Str :=
  let output :=
    if output ≠ [] ∧ !strings.HasSuffix output (str "/") then output ++ str "/" else output
  output ++ name ++ str ".docset"

/-- The embedding of `getContentsDir`. -/
def getContentsDir (docsetDir : Str) : Str :=
  filepath.Join [docsetDir, str "Contents"]

/-- The embedding of `getResourcesDir`. -/
def getResourcesDir (docsetDir : Str) : Str :=
  filepath.Join [getContentsDir docsetDir, str "Resources"]

/-- The embedding of `getDocumentPath`. -/
def getDocumentPath (packageName : Str) : Str :=
  path.Join [str "pkg", packageName, str "index.html"]

/-- The path `p` of the index file in `createDB`. -/
def createDBPath (docsetDir : Str) : Str :=
  filepath.Join [getResourcesDir docsetDir, str "docSet.dsidx"]

/-- The path `outputPath` of the icon file in `writeIcon`. -/
def writeIconPath (docsetDir : Str) : Str :=
  filepath.Join [docsetDir, str "icon.png"]

/-- The part of `writeIcon` and of `writeFile` after the output path is known:
make the directory, create the file, copy the content. -/
def createAndCopy (fs : FileSystem) (p content : Str) : Option Error × List Event :=
  match fs.mkdirAll (filepath.Dir p) with
  | some err => (some err, [.mkdirAll (filepath.Dir p)])
  | none =>
    match fs.create p with
    | some err => (some err, [.mkdirAll (filepath.Dir p), .create p])
    | none => (fs.copy p content, [.mkdirAll (filepath.Dir p), .create p, .copy p content])

/-- The embedding of `writeIcon`.  `icon` is what reading the icon (the bundled
asset, or the file at the configured path) gave. -/
def writeIcon (fs : FileSystem) (docsetDir : Str) (icon : Except Error Str) :
    Option Error × List Event :=
  match icon with
  | .error err => (some err, [])
  | .ok content => createAndCopy fs (writeIconPath docsetDir) content

/-- The embedding of `writeFile`. -/
def writeFile (fs : FileSystem) (docsetDir relPath content : Str) :
    Option Error × List Event :=
  createAndCopy fs (filepath.Join [getResourcesDir docsetDir, str "Documents", relPath]) content

/-! ## The link rewriter -/

/-- The body of the two closures of `replaceLinks`, applied to the attribute of
one element: the new value of the attribute and what is printed. -/
def replaceLink (dir suffix : Str) (attr : Option Str) : Option Str × List Event :=
  match attr with
  | none => (none, [])
  | some href =>
    if !strings.HasSuffix href suffix then
      (some href, [])
    else
      match filepath.Rel dir (strings.TrimLeft href '/') with
      | .error err => (some href, [.println err])
      | .ok newHref => (some newHref, [])

/-- The embedding of `replaceLinks`. -/
def replaceLinks (doc : Document) (documentPath : Str) : Document × List Event :=
  let dir := path.Dir documentPath
  -- css
  let links := doc.links.map (replaceLink dir (str ".css"))
  -- js
  let scripts := doc.scripts.map (replaceLink dir (str ".js"))
  ({ doc with links := links.map Prod.fst, scripts := scripts.map Prod.fst },
    (links.map Prod.snd).flatten ++ (scripts.map Prod.snd).flatten)

/-! ## The fetch-retry unit -/

/-- The embedding of `tryGrabPackage`: the `packageInfo` it returns and what it
does.  `docsetDir` is the global of that name. -/
def tryGrabPackage (w : Attempt) (docsetDir packageName url : Str) :
    PackageInfo × List Event :=
  let info : PackageInfo := { Name := packageName, IsPackage := false, Err := none }
  match w.get with
  | some err => ({ info with Err := some err }, [.httpGet url])
  | none =>
    match w.readAll with
    | .error err => ({ info with Err := some err }, [.httpGet url])
    | .ok buf =>
      match w.parse buf with
      | .error err => ({ info with Err := some err }, [.httpGet url])
      | .ok doc =>
        -- skip directories
        let pkgDir := doc.h1.headD []
        if !strings.HasPrefix (strings.TrimSpace pkgDir) (str "Package") then
          -- `infoError(err)`, where `err` is the nil error of the parse above
          ({ info with Err := none }, [.httpGet url])
        else
          let info := { info with IsPackage := true }
          let documentPath := getDocumentPath info.Name
          let replaced := replaceLinks doc documentPath
          match w.outerHtml replaced.1 with
          | .error err => ({ info with Err := some err }, .httpGet url :: replaced.2)
          | .ok newHTML =>
            let written := writeFile w.fs docsetDir documentPath newHTML
            match written.1 with
            | some err => ({ info with Err := some err }, .httpGet url :: replaced.2 ++ written.2)
            | none =>
              -- `err = info.WriteInsert(stmt)`, then `return info`
              let _err := w.writeInsert
              (info, .httpGet url :: replaced.2 ++ written.2 ++ [.writeInsert info.Name])

/-- The loop of `grabPackage`: `remaining` rounds from round `i` on; `w i` is
what the outside world answers during round `i`. -/
def grabPackageLoop (w : Nat → Attempt) (docsetDir packageName url : Str) :
    Nat → Nat → Option PackageInfo → Option PackageInfo × List Event
  | 0, _, info => (info, [])
  | remaining + 1, i, _ =>
    let tried := tryGrabPackage (w i) docsetDir packageName url
    if tried.1.Err ≠ none then
      let later := grabPackageLoop w docsetDir packageName url remaining (i + 1) (some tried.1)
      (later.1, tried.2 ++ [.sleep 2] ++ later.2)
    else
      (some tried.1, tried.2)

/-- The embedding of `grabPackage`: the `packageInfo` it keeps and what it does. -/
def grabPackage (w : Nat → Attempt) (docsetDir packageName url : Str) :
    Option PackageInfo × List Event :=
  let looped := grabPackageLoop w docsetDir packageName url 5 0 none
  (looped.1, looped.2 ++ [.print looped.1, .done])

/-! ## The crawl scheduler -/

/-- The loop of `grabPackages`; `total` is the counter of that name. -/
def grabPackagesLoop (host : Str) : List Str → Nat → List Event
  | [], _ => []
  | packageName :: packages, total =>
    .goGrabPackage (strings.TrimRight packageName '/') (host ++ str "/pkg/" ++ packageName) ::
      (if total + 1 ≥ 10 then
        .wait :: grabPackagesLoop host packages 0
      else
        grabPackagesLoop host packages (total + 1))

/-- The embedding of `grabPackages`: the goroutines it starts and its waits. -/
def grabPackages (host : Str) (packages : List Str) : List Event :=
  grabPackagesLoop host packages 0 ++ [.wait]

/-! ## The asset mirror -/

/-- A row (`tbody tr`) of a directory listing: the number of its children and the
`href` of its first `a` element. -/
structure Row where
  children : Nat
  href : Option Str
  deriving DecidableEq, Repr

/-- What the outside world answers during the asset mirror. -/
structure Web where
  /-- Fetching, reading and parsing the page at a URL: an error, or its rows. -/
  listing : Str → Except Error (List Row)
  /-- The pair `(res, err)` of `http.Get(url)` for a leaf file; a response is
  given by its body, `none` is the nil response. -/
  get : Str → Option Str × Option Error
  /-- The file system. -/
  fs : FileSystem

/-- How the closure of `grabDirectory` ends for one row. -/
inductive RowEnd where
  /-- The closure returns. -/
  | returned
  /-- The closure panics: the goroutine and with it the process stops. -/
  | panicked
  deriving DecidableEq, Repr

/-- The body of the closure of `grabDirectory`, applied to one row: what it does
and how it ends. -/
def grabDirectoryRow (w : Web) (docsetDir host relPath : Str) (row : Row) :
    List Event × RowEnd :=
  -- skip ".."
  if row.children < 2 then
    ([], .returned)
  else
    match row.href with
    | none => ([], .returned)
    | some href =>
      let url := host ++ str "/" ++ relPath ++ href
      -- download css and js
      if strings.HasSuffix href (str ".css") || strings.HasSuffix href (str ".js") then
        let res := (w.get url).1
        let err := (w.get url).2
        let printed : List Event :=
          match err with
          | some e => [.println e]
          | none => []
        match res with
        | none =>
          -- `defer res.Body.Close()` on the nil `res`
          (.httpGet url :: printed, .panicked)
        | some body =>
          let written := writeFile w.fs docsetDir (relPath ++ href) body
          match written.1 with
          | some e => (.httpGet url :: printed ++ written.2 ++ [.println e], .returned)
          | none => (.httpGet url :: printed ++ written.2, .returned)
      else
        -- or walk into next directory
        ([.goGrabDirectory url], .returned)

/-- The `Each` over the rows of a listing: the rows in order, up to a panic. -/
def grabDirectoryRows (w : Web) (docsetDir host relPath : Str) :
    List Row → List Event × RowEnd
  | [] => ([], .returned)
  | row :: rows =>
    match grabDirectoryRow w docsetDir host relPath row with
    | (events, .panicked) => (events, .panicked)
    | (events, .returned) =>
      match grabDirectoryRows w docsetDir host relPath rows with
      | (later, e) => (events ++ later, e)

/-- The embedding of one call of `grabDirectory`: what the call itself does, the
goroutines it starts being events.  The deferred `wg.Done()` runs when the call
returns and also when a panic of the closure unwinds it. -/
def grabDirectory (w : Web) (docsetDir host relPath : Str) : List Event × RowEnd :=
  match w.listing (host ++ str "/" ++ relPath) with
  | .error err => ([.httpGet (host ++ str "/" ++ relPath), .println err, .done], .returned)
  | .ok rows =>
    match grabDirectoryRows w docsetDir host relPath rows with
    | (events, .panicked) =>
      (.httpGet (host ++ str "/" ++ relPath) :: events ++ [.done], .panicked)
    | (events, .returned) =>
      (.httpGet (host ++ str "/" ++ relPath) :: events ++ [.done], .returned)

/-- The directories that a list of events starts a goroutine for. -/
def started : List Event → List Str
  | [] => []
  | .goGrabDirectory relPath :: events => relPath :: started events
  | _ :: events => started events

/-- The calls of `grabDirectory` that a call for `relPath` leads to, each with what
it does, a call before the calls it starts, to the depth `depth`. -/
def grabDirectoryTree (w : Web) (docsetDir host : Str) :
    Nat → Str → List (Str × List Event × RowEnd)
  | 0, _ => []
  | depth + 1, relPath =>
    (relPath, grabDirectory w docsetDir host relPath) ::
      ((started (grabDirectory w docsetDir host relPath).1).map
        (grabDirectoryTree w docsetDir host depth)).flatten

/-- The embedding of `grabLib`: the calls of `grabDirectory` from the asset root on. -/
def grabLib (w : Web) (docsetDir host : Str) (depth : Nat) :
    List (Str × List Event × RowEnd) :=
  grabDirectoryTree w docsetDir host depth (str "lib/godoc/")

/-! ## Package discovery -/

/-- The loop of `matchFilter` over the filters. -/
def matchFilterLoop (keyword : Str) : List Str → Bool
  | [] => false
  | f :: rest =>
    if strings.HasSuffix f (str "*") &&
        strings.Contains keyword
          (strings.TrimSuffix (strings.TrimPrefix f (str "github.com/")) (str "*")) then
      true
    else if strings.Contains keyword f then
      true
    else
      matchFilterLoop keyword rest

/-- The embedding of `matchFilter`. -/
def matchFilter (keyword : Str) (filter : List Str) : Bool :=
  if filter.length = 0 then true else matchFilterLoop keyword filter

/-- The body of the closure of `getPackages`, applied to one `a` element of the
package-directory listing (`none`: the element has no `href`). -/
def getPackagesStep (filter : List Str) (packages : List Str) (pkg : Option Str) : List Str :=
  match pkg with
  | none => packages
  | some packageName =>
    if strings.Contains packageName (str ".") && matchFilter packageName filter then
      packages ++ [packageName]
    else
      packages

/-- The embedding of `getPackages`.  `doc` is what fetching and parsing the page
`host/pkg/` gave: an error, or the `href`s of the elements that the selector
`div.pkg-dir td.pkg-name a` finds, in document order. -/
def getPackages (doc : Except Error (List (Option Str))) (filter : List Str) :
    Except Error (List Str) :=
  match doc with
  | .error err => .error err
  | .ok links => .ok (links.foldl (getPackagesStep filter) [])

/-- The wildcard fragment of a filter in the words of the specification: the
filter with a leading `github.com/` removed and the trailing `*` removed. -/
def wildcardFragment (f : Str) : Str :=
  (if (str "github.com/") <+: f then f.drop (str "github.com/").length else f).dropLast

/-- The goroutines `go grabPackage(...)` that a list of events starts: the name and
the URL of each, in order. -/
def launched : List Event → List (Str × Str)
  | [] => []
  | .goGrabPackage name url :: events => (name, url) :: launched events
  | _ :: events => launched events

/-- The number of goroutines `go grabPackage(...)` that can be running after the
events: those started since the last `wg.Wait()` returned. -/
def outstanding (events : List Event) : Nat :=
  events.foldl (fun n e =>
    match e with
    | .goGrabPackage _ _ => n + 1
    | .wait => 0
    | _ => n) 0

/-- The schedule in the words of the specification: one unit per target, in list
order, a barrier after every 10th launch and a final barrier. -/
def batchSchedule (host : Str) (packages : List Str) : List Event :=
  (packages.enum.map (fun ip =>
    Event.goGrabPackage (strings.TrimRight ip.2 '/') (host ++ str "/pkg/" ++ ip.2) ::
      (if (ip.1 + 1) % 10 = 0 then [Event.wait] else []))).flatten ++ [Event.wait]

/-! ## The loop of `path.Clean`, element by element -/

/-- The elements of a path: the pieces between its slashes. -/
def splitSlash : Str → List Str
  | [] => [[]]
  | c :: p =>
    if c = '/' then [] :: splitSlash p
    else (c :: (splitSlash p).headD []) :: (splitSlash p).tail

/-- The elements of what follows an element: of nothing, or of what follows the
slash that ends the element. -/
def restElems : Str → List Str
  | [] => []
  | _ :: q => splitSlash q

/-- What the rounds of the loop of `path.Clean` that read one element do to the state. -/
def cleanStep (rooted : Bool) (st : CleanState) (e : Str) : CleanState :=
  if e = [] ∨ e = ['.'] then
    st
  else if e = ['.', '.'] then
    if st.out.length > st.dotdot then
      { st with out := cleanBacktrack st.dotdot st.out }
    else if !rooted then
      { out := '.' :: '.' :: (if st.out.length > 0 then '/' :: st.out else st.out)
        dotdot := ('.' :: '.' :: (if st.out.length > 0 then '/' :: st.out else st.out)).length }
    else
      st
  else
    { st with
      out := e.reverse ++
        (if (rooted && st.out.length != 1) || (!rooted && st.out.length != 0) then
          '/' :: st.out
        else
          st.out) }

/-- The end of `path.Clean`: turn empty string into ".". -/
def cleanFinish (st : CleanState) : Str :=
  if st.out.length = 0 then str "." else st.out.reverse

/-- An element that `path.Clean` keeps: not empty, without slash, not `.` and not `..`. -/
def normalElem (e : Str) : Prop :=
  e ≠ [] ∧ '/' ∉ e ∧ e ≠ ['.'] ∧ e ≠ ['.', '.']

instance : DecidablePred normalElem := fun e => by
  unfold normalElem
  infer_instance

/-- The elements joined by slashes. -/
def joinSlash (es : List Str) : Str :=
  ['/'].intercalate es

/-- The relative path of `ups` elements `..` followed by the elements `segs`. -/
def render (ups : Nat) (segs : List Str) : Str :=
  joinSlash (List.replicate ups ['.', '.'] ++ segs)

/-- The state of the loop of `path.Clean` on a relative path when the output so far
is `ups` elements `..` followed by the elements `segs`. -/
def absState (ups : Nat) (segs : List Str) : CleanState :=
  ⟨(render ups segs).reverse, (render ups []).length⟩

/-- A package name as the specification takes it: a clean, relative,
slash-separated path without an element `..`. -/
def cleanRelativeName (packageName : Str) : Prop :=
  path.Clean packageName = packageName ∧ packageName.head? ≠ some '/' ∧
    str ".." ∉ splitSlash packageName

instance : DecidablePred cleanRelativeName := fun packageName => by
  unfold cleanRelativeName
  infer_instance

/-! ## The crawl scheduler and its units, interleaved -/

/-- A goroutine `grabPackage(wg, stmt, name, url)` that `grabPackages` has started:
its target, what it has done so far and what it still has to do. -/
structure Running where
  name : Str
  url : Str
  did : List Event
  todo : List Event
  deriving DecidableEq, Repr

/-- The state of a crawl: what `grabPackages` still has to do, the goroutines it has
started, in the order of their start, and the counter of the `sync.WaitGroup`. -/
structure Crawl where
  sched : List Event
  units : List Running
  counter : Nat
  deriving DecidableEq, Repr

/-- Who takes the next step of a crawl: `grabPackages`, or the goroutine that was
started as number `k`. -/
inductive Turn where
  | scheduler
  | unit (k : Nat)
  deriving DecidableEq, Repr

/-- A step of the goroutine number `k`: it does its next event. -/
def stepUnit : List Running → Nat → Option (List Running × Event)
  | [], _ => none
  | u :: us, 0 =>
    match u.todo with
    | [] => none
    | e :: todo => some ({ u with did := u.did ++ [e], todo := todo } :: us, e)
  | u :: us, k + 1 =>
    match stepUnit us k with
    | none => none
    | some r => some (u :: r.1, r.2)

/-- One step of a crawl.  `wg.Add(1); go grabPackage(...)` adds one to the counter
and starts the goroutine, whose events are those of `grabPackage`; `wg.Done()`
takes one off the counter; `wg.Wait()` returns only when the counter is zero.
`w k` is what the outside world answers to the goroutine number `k`. -/
def step (w : Nat → Nat → Attempt) (docsetDir : Str) (st : Crawl) : Turn → Option Crawl
  | .scheduler =>
    match st.sched with
    | .goGrabPackage name url :: sched =>
      some
        { sched := sched
          units := st.units ++
            [⟨name, url, [], (grabPackage (w st.units.length) docsetDir name url).2⟩]
          counter := st.counter + 1 }
    | .wait :: sched => if st.counter = 0 then some { st with sched := sched } else none
    | _ => none
  | .unit k =>
    match stepUnit st.units k with
    | none => none
    | some r =>
      some
        { st with
          units := r.1
          counter := if r.2 = .done then st.counter - 1 else st.counter }

/-- The steps of a crawl in the order of `turns`; `none` when a turn cannot step. -/
def exec (w : Nat → Nat → Attempt) (docsetDir : Str) : Crawl → List Turn → Option Crawl
  | st, [] => some st
  | st, t :: turns =>
    match step w docsetDir st t with
    | none => none
    | some st1 => exec w docsetDir st1 turns

/-- The crawl at the call of `grabPackages`. -/
def crawlStart (host : Str) (packages : List Str) : Crawl :=
  ⟨grabPackages host packages, [], 0⟩

/-- The number of attempts among events: the calls `http.Get` of `tryGrabPackage`. -/
def attempts (events : List Event) : Nat :=
  events.countP (fun e =>
    match e with
    | .httpGet _ => true
    | _ => false)

/-- The number of started goroutines that have not yet done all their events. -/
def pending (units : List Running) : Nat :=
  units.countP (fun u => decide (u.todo ≠ []))

/-- The number of events that the started goroutines still have to do. -/
def remaining (units : List Running) : Nat :=
  (units.map (fun u => u.todo.length)).sum

/-- The number of steps that the rest of the schedule stands for, the goroutine
started next being number `k`. -/
def schedCost (w : Nat → Nat → Attempt) (docsetDir : Str) : Nat → List Event → Nat
  | _, [] => 0
  | k, .goGrabPackage name url :: sched =>
    1 + (grabPackage (w k) docsetDir name url).2.length + schedCost w docsetDir (k + 1) sched
  | k, _ :: sched => 1 + schedCost w docsetDir k sched

/-- Every started goroutine is somewhere in the events of `grabPackage` for its
target, the first goroutine of the list being number `k`. -/
def unitsOk (w : Nat → Nat → Attempt) (docsetDir : Str) : Nat → List Running → Prop
  | _, [] => True
  | k, u :: us =>
    u.did ++ u.todo = (grabPackage (w k) docsetDir u.name u.url).2 ∧
      unitsOk w docsetDir (k + 1) us

/-- What holds in every state of a crawl: the schedule done so far, `pre`, has
started the goroutines of the state, the counter of the `sync.WaitGroup` is the
number of goroutines that are not yet done, and that is at most the number of
goroutines started since the last `wg.Wait()`. -/
def CrawlInv (w : Nat → Nat → Attempt) (docsetDir host : Str) (packages : List Str)
    (st : Crawl) : Prop :=
  ∃ pre, pre ++ st.sched = grabPackages host packages ∧
    launched pre = st.units.map (fun u => (u.name, u.url)) ∧
    unitsOk w docsetDir 0 st.units ∧
    st.counter = pending st.units ∧
    st.counter ≤ outstanding pre

/-- The number of steps that a crawl still has to take. -/
def potential (w : Nat → Nat → Attempt) (docsetDir : Str) (st : Crawl) : Nat :=
  schedCost w docsetDir st.units.length st.sched + remaining st.units

/-! ## Example worlds -/

/-- A file system on which every call succeeds. -/
def okFileSystem : FileSystem :=
  { mkdirAll := fun _ => none, create := fun _ => none, copy := fun _ _ => none }

/-- An attempt whose `http.Get` fails. -/
def refusedAttempt : Attempt :=
  { get := some (str "connection refused")
    readAll := .ok []
    parse := fun _ => .ok ⟨[], [], []⟩
    outerHtml := fun _ => .ok []
    fs := okFileSystem
    writeInsert := none }

/-- An attempt that fetches a page with the heading `h1`, one stylesheet and one
script, on which every step up to the index insertion succeeds and the index
insertion answers `insertErr`. -/
def pageAttempt (h1 : Str) (insertErr : Option Error) : Attempt :=
  { get := none
    readAll := .ok (str "<html>")
    parse := fun _ =>
      .ok ⟨[h1], [some (str "/lib/godoc/style.css")], [some (str "/lib/godoc/godocs.js")]⟩
    outerHtml := fun _ => .ok (str "<html>")
    fs := okFileSystem
    writeInsert := insertErr }

/-- A server `http://h` whose asset root lists `..`, `style.css`, `godocs.js` and the
directory `js/`, which lists `..` and `app.js`; every other listing is an error.
With `refused`, fetching `style.css` fails with a nil response; every other leaf
file is served. -/
def assetWeb (refused : Bool) : Web :=
  { listing := fun url =>
      if url = str "http://h/lib/godoc/" then
        .ok [⟨1, some (str "..")⟩, ⟨2, some (str "style.css")⟩, ⟨2, some (str "godocs.js")⟩,
          ⟨2, some (str "js/")⟩]
      else if url = str "http://h/lib/godoc/js/" then
        .ok [⟨1, some (str "..")⟩, ⟨2, some (str "app.js")⟩]
      else
        .error (str "404 page not found")
    get := fun url =>
      if refused ∧ url = str "http://h/lib/godoc/style.css" then
        (none, some (str "connection refused"))
      else
        (some (str "body"), none)
    fs := okFileSystem }

/-- Two targets `a.b/c/` and `d.e/` whose pages are directory listings: each unit
makes one attempt. -/
def twoTargets : List Str := [str "a.b/c/", str "d.e/"]

/-- An interleaving of the crawl of `twoTargets`: both units are started, the
second one runs, then the first one, then `grabPackages` passes its last wait. -/
def twoTargetsTurns : List Turn :=
  [.scheduler, .scheduler, .unit 1, .unit 1, .unit 0, .unit 1, .unit 0, .unit 0, .scheduler]

/-! # Theorems -/

/-! ## Facts about package `strings` -/

theorem hasPrefix_iff (s pre : Str) : strings.HasPrefix s pre = true ↔ pre <+: s := by
  unfold strings.HasPrefix
  simp only [Bool.and_eq_true, decide_eq_true_eq]
  constructor
  · rintro ⟨_, h⟩
    exact h ▸ List.take_prefix _ _
  · intro h
    exact ⟨h.length_le, List.prefix_iff_eq_take.mp h |>.symm⟩

theorem hasSuffix_iff (s suffix : Str) : strings.HasSuffix s suffix = true ↔ suffix <:+ s := by
  unfold strings.HasSuffix
  simp only [Bool.and_eq_true, decide_eq_true_eq]
  constructor
  · rintro ⟨_, h⟩
    exact h ▸ List.drop_suffix _ _
  · intro h
    exact ⟨h.length_le, List.suffix_iff_eq_drop.mp h |>.symm⟩

theorem contains_iff (s substr : Str) : strings.Contains s substr = true ↔ substr <:+: s := by
  induction s with
  | nil =>
    simp only [strings.Contains, hasPrefix_iff]
    exact ⟨fun h => h.isInfix, fun h => by
      rw [List.eq_nil_of_infix_nil h]⟩
  | cons c s ih =>
    simp only [strings.Contains, Bool.or_eq_true, hasPrefix_iff, ih, List.infix_cons_iff]

theorem matchFilterLoop_cons (keyword f : Str) (rest : List Str) :
    matchFilterLoop keyword (f :: rest) =
      ((strings.HasSuffix f (str "*") &&
          strings.Contains keyword (strings.TrimSuffix (strings.TrimPrefix f (str "github.com/")) (str "*"))) ||
        (strings.Contains keyword f || matchFilterLoop keyword rest)) := by
  rw [matchFilterLoop]
  cases strings.HasSuffix f (str "*") &&
      strings.Contains keyword (strings.TrimSuffix (strings.TrimPrefix f (str "github.com/")) (str "*")) <;>
    cases strings.Contains keyword f <;> rfl

theorem matchFilterLoop_iff (keyword : Str) (filter : List Str) :
    matchFilterLoop keyword filter = true ↔
      ∃ f ∈ filter, f <:+: keyword ∨
        (str "*" <:+ f ∧
          strings.TrimSuffix (strings.TrimPrefix f (str "github.com/")) (str "*") <:+: keyword) := by
  induction filter with
  | nil => simp [matchFilterLoop]
  | cons f rest ih =>
    rw [matchFilterLoop_cons, Bool.or_eq_true, Bool.or_eq_true, Bool.and_eq_true, ih,
      hasSuffix_iff, contains_iff, contains_iff, List.exists_mem_cons_iff]
    constructor
    · rintro (h | h | h)
      · exact Or.inl (Or.inr h)
      · exact Or.inl (Or.inl h)
      · exact Or.inr h
    · rintro ((h | h) | h)
      · exact Or.inr (Or.inl h)
      · exact Or.inl h
      · exact Or.inr (Or.inr h)

/-- For a filter that ends in `*`, the fragment `matchFilter` computes is the
fragment the specification describes. -/
theorem trim_eq_wildcardFragment (f : Str) (h : str "*" <:+ f) :
    strings.TrimSuffix (strings.TrimPrefix f (str "github.com/")) (str "*") = wildcardFragment f := by
  have hstar : str "*" = ['*'] := rfl
  have key : ∀ g : Str, str "*" <:+ g → strings.TrimSuffix g (str "*") = g.dropLast := by
    rintro g ⟨w, rfl⟩
    have : strings.HasSuffix (w ++ str "*") (str "*") = true := (hasSuffix_iff _ _).mpr ⟨w, rfl⟩
    unfold strings.TrimSuffix
    rw [if_pos this, hstar]
    simp
  unfold wildcardFragment strings.TrimPrefix
  by_cases hp : strings.HasPrefix f (str "github.com/") = true
  · rw [if_pos hp, if_pos ((hasPrefix_iff _ _).mp hp)]
    apply key
    obtain ⟨t, ht⟩ := (hasPrefix_iff _ _).mp hp
    obtain ⟨w, hw⟩ := h
    rw [← ht, List.drop_left]
    rw [hstar] at hw ⊢
    rcases List.eq_nil_or_concat t with rfl | ⟨t0, c, rfl⟩
    · exfalso
      have h1 : w ++ ['*'] = str "github.com/" ++ [] := hw.trans ht.symm
      have h2 : w ++ ['*'] = str "github.com" ++ ['/'] := h1
      have h3 := (List.append_inj' h2 rfl).2
      revert h3
      decide
    · have h1 : (str "github.com/" ++ t0) ++ [c] = w ++ ['*'] := by
        rw [List.append_assoc, ← List.concat_eq_append]
        exact ht.trans hw.symm
      have h3 := (List.append_inj' h1 rfl).2
      rw [List.concat_eq_append, h3]
      exact ⟨t0, rfl⟩
  · rw [if_neg hp, if_neg (fun hh => hp ((hasPrefix_iff _ _).mpr hh))]
    exact key f h

theorem matchFilter_iff_aux (keyword : Str) (filter : List Str) :
    matchFilter keyword filter = true ↔
      filter = [] ∨ (∃ f ∈ filter, f <:+: keyword) ∨
        (∃ f ∈ filter, str "*" <:+ f ∧ wildcardFragment f <:+: keyword) := by
  unfold matchFilter
  cases filter with
  | nil => simp
  | cons f rest =>
    rw [if_neg (by simp), matchFilterLoop_iff]
    constructor
    · rintro ⟨g, hg, h | ⟨h1, h2⟩⟩
      · exact Or.inr (Or.inl ⟨g, hg, h⟩)
      · exact Or.inr (Or.inr ⟨g, hg, h1, trim_eq_wildcardFragment g h1 ▸ h2⟩)
    · rintro (h | ⟨g, hg, h⟩ | ⟨g, hg, h1, h2⟩)
      · exact absurd h (by simp)
      · exact ⟨g, hg, Or.inl h⟩
      · exact ⟨g, hg, Or.inr ⟨h1, (trim_eq_wildcardFragment g h1).symm ▸ h2⟩⟩

/-! ## Facts about package discovery -/

theorem getPackages_foldl (filter : List Str) (links : List (Option Str)) (acc : List Str) :
    links.foldl (getPackagesStep filter) acc =
      acc ++ links.reduceOption.filter
        (fun name => strings.Contains name (str ".") && matchFilter name filter) := by
  induction links generalizing acc with
  | nil => simp [List.reduceOption]
  | cons l links ih =>
    rw [List.foldl_cons, ih]
    cases l with
    | none => simp [getPackagesStep, List.reduceOption_cons_of_none]
    | some name =>
      rw [List.reduceOption_cons_of_some, List.filter_cons]
      unfold getPackagesStep
      by_cases h : (strings.Contains name (str ".") && matchFilter name filter) = true
      · simp only [h, if_true, List.append_assoc, List.singleton_append]
      · simp only [h, if_false, Bool.false_eq_true]

/-! ## Facts about the crawl scheduler -/

theorem launched_append (xs ys : List Event) : launched (xs ++ ys) = launched xs ++ launched ys := by
  induction xs with
  | nil => rfl
  | cons e xs ih => cases e <;> simp [launched, ih]

theorem launched_loop (host : Str) (packages : List Str) (total : Nat) :
    launched (grabPackagesLoop host packages total) =
      packages.map (fun q => (strings.TrimRight q '/', host ++ str "/pkg/" ++ q)) := by
  induction packages generalizing total with
  | nil => rfl
  | cons q packages ih =>
    rw [grabPackagesLoop]
    split
    · simp [launched, ih]
    · simp [launched, ih]

theorem launched_grabPackages (host : Str) (packages : List Str) :
    launched (grabPackages host packages) =
      packages.map (fun q => (strings.TrimRight q '/', host ++ str "/pkg/" ++ q)) := by
  rw [grabPackages, launched_append, launched_loop]
  simp [launched]

theorem grabPackagesLoop_eq (host : Str) (packages : List Str) (total k : Nat)
    (hk : k % 10 = total) :
    grabPackagesLoop host packages total =
      ((packages.enumFrom k).map (fun ip =>
        Event.goGrabPackage (strings.TrimRight ip.2 '/') (host ++ str "/pkg/" ++ ip.2) ::
          (if (ip.1 + 1) % 10 = 0 then [Event.wait] else []))).flatten := by
  induction packages generalizing total k with
  | nil => rfl
  | cons q packages ih =>
    rw [grabPackagesLoop, List.enumFrom_cons, List.map_cons, List.flatten_cons]
    by_cases h : total + 1 ≥ 10
    · have h1 : (k + 1) % 10 = 0 := by omega
      rw [if_pos h, if_pos h1, ih 0 (k + 1) h1]
      rfl
    · have h1 : ¬ (k + 1) % 10 = 0 := by omega
      rw [if_neg h, if_neg h1, ih (total + 1) (k + 1) (by omega)]
      rfl

theorem outstanding_foldl_loop (host : Str) (packages : List Str) (total : Nat) (h : total < 10)
    (pre : List Event) (hpre : pre <+: grabPackagesLoop host packages total ++ [Event.wait]) :
    pre.foldl (fun n e =>
      match e with
      | .goGrabPackage _ _ => n + 1
      | .wait => 0
      | _ => n) total ≤ 10 := by
  induction packages generalizing total pre with
  | nil =>
    rw [grabPackagesLoop, List.nil_append, List.prefix_cons_iff] at hpre
    rcases hpre with rfl | ⟨t, rfl, ht⟩
    · exact Nat.le_of_lt h
    · rw [List.prefix_nil] at ht
      subst ht
      exact Nat.zero_le _
  | cons q packages ih =>
    rw [grabPackagesLoop, List.cons_append, List.prefix_cons_iff] at hpre
    rcases hpre with rfl | ⟨t, rfl, ht⟩
    · exact Nat.le_of_lt h
    · rw [List.foldl_cons]
      by_cases hc : total + 1 ≥ 10
      · rw [if_pos hc, List.cons_append, List.prefix_cons_iff] at ht
        rcases ht with rfl | ⟨t1, rfl, ht1⟩
        · show total + 1 ≤ 10
          omega
        · rw [List.foldl_cons]
          exact ih 0 (by omega) t1 ht1
      · rw [if_neg hc] at ht
        exact ih (total + 1) (by omega) t ht

theorem outstanding_grabPackages (host : Str) (packages : List Str) :
    outstanding (grabPackages host packages) = 0 := by
  unfold outstanding grabPackages
  rw [List.foldl_append]
  rfl

theorem contains_eq_decide (s substr : Str) :
    strings.Contains s substr = decide (substr <:+: s) := by
  rw [Bool.eq_iff_iff, contains_iff, decide_eq_true_iff]

/-! ## Facts about the fetch-retry unit -/

theorem tryGrabPackage_get_error (w : Attempt) (docsetDir packageName url : Str) (e : Error)
    (h : w.get = some e) :
    tryGrabPackage w docsetDir packageName url =
      (⟨packageName, false, some e⟩, [.httpGet url]) := by
  unfold tryGrabPackage
  simp only [h]

theorem tryGrabPackage_parsed (w : Attempt) (docsetDir packageName url buf : Str)
    (doc : Document) (hget : w.get = none) (hread : w.readAll = .ok buf)
    (hparse : w.parse buf = .ok doc) :
    tryGrabPackage w docsetDir packageName url =
      if !strings.HasPrefix (strings.TrimSpace (doc.h1.headD [])) (str "Package") then
        (⟨packageName, false, none⟩, [.httpGet url])
      else
        match w.outerHtml (replaceLinks doc (getDocumentPath packageName)).1 with
        | .error err =>
          (⟨packageName, true, some err⟩,
            .httpGet url :: (replaceLinks doc (getDocumentPath packageName)).2)
        | .ok newHTML =>
          match (writeFile w.fs docsetDir (getDocumentPath packageName) newHTML).1 with
          | some err =>
            (⟨packageName, true, some err⟩,
              .httpGet url :: (replaceLinks doc (getDocumentPath packageName)).2 ++
                (writeFile w.fs docsetDir (getDocumentPath packageName) newHTML).2)
          | none =>
            (⟨packageName, true, none⟩,
              .httpGet url :: (replaceLinks doc (getDocumentPath packageName)).2 ++
                (writeFile w.fs docsetDir (getDocumentPath packageName) newHTML).2 ++
                [.writeInsert packageName]) := by
  unfold tryGrabPackage
  simp only [hget, hread, hparse]

theorem grabPackage_first_ok (w : Nat → Attempt) (docsetDir packageName url : Str)
    (h : (tryGrabPackage (w 0) docsetDir packageName url).1.Err = none) :
    grabPackage w docsetDir packageName url =
      (some (tryGrabPackage (w 0) docsetDir packageName url).1,
        (tryGrabPackage (w 0) docsetDir packageName url).2 ++
          [.print (some (tryGrabPackage (w 0) docsetDir packageName url).1), .done]) := by
  unfold grabPackage
  rw [grabPackageLoop]
  simp only [h, ne_eq, not_true_eq_false, if_false]

theorem grabPackage_all_refused (w : Nat → Attempt) (docsetDir packageName url : Str)
    (e : Nat → Error) (h : ∀ i, (w i).get = some (e i)) :
    grabPackage w docsetDir packageName url =
      (some ⟨packageName, false, some (e 4)⟩,
        [.httpGet url, .sleep 2, .httpGet url, .sleep 2, .httpGet url, .sleep 2,
          .httpGet url, .sleep 2, .httpGet url, .sleep 2,
          .print (some ⟨packageName, false, some (e 4)⟩), .done]) := by
  unfold grabPackage
  simp only [grabPackageLoop, tryGrabPackage_get_error _ _ _ _ _ (h _), ne_eq,
    reduceCtorEq, not_false_eq_true, if_true, List.append_nil, List.cons_append,
    List.nil_append]

theorem replaceLink_events (dir suffix : Str) (attr : Option Str) (ev : Event)
    (h : ev ∈ (replaceLink dir suffix attr).2) : ∃ e, ev = .println e := by
  unfold replaceLink at h
  split at h
  · simp at h
  · split at h
    · simp at h
    · split at h
      · rw [List.mem_singleton] at h
        exact ⟨_, h⟩
      · simp at h

theorem replaceLinks_events (doc : Document) (documentPath : Str) (ev : Event)
    (h : ev ∈ (replaceLinks doc documentPath).2) : ∃ e, ev = .println e := by
  unfold replaceLinks at h
  simp only [List.mem_append, List.mem_flatten, List.mem_map, exists_exists_and_eq_and] at h
  rcases h with ⟨a, _, h⟩ | ⟨a, _, h⟩
  · exact replaceLink_events _ _ _ _ h
  · exact replaceLink_events _ _ _ _ h

theorem createAndCopy_events (fs : FileSystem) (q content : Str) (ev : Event)
    (h : ev ∈ (createAndCopy fs q content).2) :
    ev = .mkdirAll (filepath.Dir q) ∨ ev = .create q ∨ ev = .copy q content := by
  unfold createAndCopy at h
  split at h
  · simp only [List.mem_singleton] at h
    exact Or.inl h
  · split at h
    · simp only [List.mem_cons, List.mem_singleton, List.not_mem_nil, or_false] at h
      rcases h with h | h
      · exact Or.inl h
      · exact Or.inr (Or.inl h)
    · simp only [List.mem_cons, List.mem_singleton, List.not_mem_nil, or_false] at h
      exact h

theorem written_no_get_no_sleep (doc : Document) (fs : FileSystem)
    (docsetDir documentPath content : Str) (ev : Event)
    (h : ev ∈ (replaceLinks doc documentPath).2 ++ (writeFile fs docsetDir documentPath content).2) :
    (∀ u, ev ≠ .httpGet u) ∧ (∀ n, ev ≠ .sleep n) := by
  rw [List.mem_append] at h
  rcases h with h | h
  · obtain ⟨e, rfl⟩ := replaceLinks_events _ _ _ h
    exact ⟨fun _ => by simp, fun _ => by simp⟩
  · rcases createAndCopy_events _ _ _ _ h with rfl | rfl | rfl <;>
      exact ⟨fun _ => by simp, fun _ => by simp⟩

/-! ## Facts about the asset mirror -/

theorem grabDirectoryRow_refused (w : Web) (docsetDir host relPath href : Str) (row : Row)
    (e : Error) (hchildren : 2 ≤ row.children) (hhref : row.href = some href)
    (hleaf : str ".css" <:+ href ∨ str ".js" <:+ href)
    (hget : w.get (host ++ str "/" ++ relPath ++ href) = (none, some e)) :
    grabDirectoryRow w docsetDir host relPath row =
      ([.httpGet (host ++ str "/" ++ relPath ++ href), .println e], .panicked) := by
  have hsuf : (strings.HasSuffix href (str ".css") || strings.HasSuffix href (str ".js")) = true := by
    rw [Bool.or_eq_true, hasSuffix_iff, hasSuffix_iff]
    exact hleaf
  unfold grabDirectoryRow
  rw [if_neg (by omega)]
  simp only [hhref, hsuf, if_true, hget]

theorem grabDirectoryRow_directory (w : Web) (docsetDir host relPath href : Str) (row : Row)
    (hchildren : 2 ≤ row.children) (hhref : row.href = some href)
    (hcss : ¬ str ".css" <:+ href) (hjs : ¬ str ".js" <:+ href) :
    grabDirectoryRow w docsetDir host relPath row =
      ([.goGrabDirectory (host ++ str "/" ++ relPath ++ href)], .returned) := by
  have hsuf : (strings.HasSuffix href (str ".css") || strings.HasSuffix href (str ".js")) = false := by
    rw [Bool.or_eq_false_iff, ← Bool.not_eq_true, ← Bool.not_eq_true, hasSuffix_iff,
      hasSuffix_iff]
    exact ⟨hcss, hjs⟩
  unfold grabDirectoryRow
  rw [if_neg (by omega)]
  simp only [hhref, hsuf, Bool.false_eq_true, if_false]

theorem grabDirectoryRows_append (w : Web) (docsetDir host relPath : Str)
    (before rest : List Row) (events : List Event)
    (h : grabDirectoryRows w docsetDir host relPath before = (events, .returned)) :
    grabDirectoryRows w docsetDir host relPath (before ++ rest) =
      (events ++ (grabDirectoryRows w docsetDir host relPath rest).1,
        (grabDirectoryRows w docsetDir host relPath rest).2) := by
  induction before generalizing events with
  | nil =>
    rw [grabDirectoryRows] at h
    rw [← (Prod.mk.inj h).1]
    rfl
  | cons r before ih =>
    rw [grabDirectoryRows] at h
    rw [List.cons_append, grabDirectoryRows]
    rcases hr : grabDirectoryRow w docsetDir host relPath r with ⟨ev1, end1⟩
    rw [hr] at h
    cases end1 with
    | panicked => simp at h
    | returned =>
      rcases hb : grabDirectoryRows w docsetDir host relPath before with ⟨ev2, end2⟩
      rw [hb] at h
      simp only [Prod.mk.injEq] at h
      obtain ⟨h1, h2⟩ := h
      subst h2
      simp only [ih ev2 hb, ← h1, List.append_assoc]

theorem grabDirectory_head (w : Web) (docsetDir host relPath : Str) :
    (grabDirectory w docsetDir host relPath).1.head? =
      some (.httpGet (host ++ str "/" ++ relPath)) := by
  unfold grabDirectory
  split
  · rfl
  · split <;> rfl

/-! ## Facts about `path.Clean` -/

theorem splitSlash_ne_nil (p : Str) : splitSlash p ≠ [] := by
  cases p with
  | nil => simp [splitSlash]
  | cons c p =>
    rw [splitSlash]
    split <;> simp

theorem splitSlash_slash (p : Str) : splitSlash ('/' :: p) = [] :: splitSlash p := by
  rw [splitSlash, if_pos rfl]

theorem splitSlash_cons (c : Char) (p : Str) (h : c ≠ '/') :
    splitSlash (c :: p) = (c :: (splitSlash p).headD []) :: (splitSlash p).tail := by
  rw [splitSlash, if_neg h]

/-- The first element of a path is what precedes its first slash; the other
elements are those of what follows that slash. -/
theorem splitSlash_eq (p : Str) :
    splitSlash p = p.takeWhile (fun x => x != '/') ::
      restElems (p.dropWhile (fun x => x != '/')) := by
  induction p with
  | nil => rfl
  | cons c p ih =>
    by_cases h : c = '/'
    · subst h
      rw [splitSlash_slash]
      rfl
    · rw [splitSlash_cons c p h, ih]
      have hc : (c != '/') = true := by simpa using h
      simp only [List.headD_cons, List.tail_cons, List.takeWhile_cons, List.dropWhile_cons, hc,
        if_true]

theorem cleanLoop_nil (rooted : Bool) (fuel : Nat) (st : CleanState) :
    cleanLoop rooted fuel [] st = st := by
  cases fuel <;> rfl

theorem foldl_cleanStep_nil_elem (rooted : Bool) (st : CleanState) (es : List Str) :
    ([] :: es).foldl (cleanStep rooted) st = es.foldl (cleanStep rooted) st := by
  rw [List.foldl_cons]
  congr 1

theorem foldl_cleanStep_splitSlash_slash (rooted : Bool) (st : CleanState) (p : Str) :
    (splitSlash ('/' :: p)).foldl (cleanStep rooted) st =
      (splitSlash p).foldl (cleanStep rooted) st := by
  rw [splitSlash_slash, foldl_cleanStep_nil_elem]

/-- Folding over the elements of what follows an element, whether that is
nothing or a slash and more. -/
theorem foldl_cleanStep_rest (rooted : Bool) (st : CleanState) (p : Str)
    (h : p = [] ∨ p.head? = some '/') :
    (splitSlash p).foldl (cleanStep rooted) st =
      (restElems p).foldl (cleanStep rooted) st := by
  cases p with
  | nil => rfl
  | cons c q =>
    rcases h with h | h
    · exact absurd h (by simp)
    · simp only [List.head?_cons, Option.some.injEq] at h
      subst h
      exact foldl_cleanStep_splitSlash_slash rooted st q

theorem dropWhile_not_slash (p : Str) :
    p.dropWhile (fun x => x != '/') = [] ∨ (p.dropWhile (fun x => x != '/')).head? = some '/' := by
  induction p with
  | nil => exact Or.inl rfl
  | cons c p ih =>
    by_cases h : c = '/'
    · subst h
      exact Or.inr rfl
    · have hc : (c != '/') = true := by simpa using h
      rw [List.dropWhile_cons, if_pos hc]
      exact ih

theorem takeWhile_eq_nil_of_rest (p : Str) (h : p = [] ∨ p.head? = some '/') :
    p.takeWhile (fun x => x != '/') = [] := by
  cases p with
  | nil => rfl
  | cons c q =>
    rcases h with h | h
    · exact absurd h (by simp)
    · simp only [List.head?_cons, Option.some.injEq] at h
      subst h
      rfl

theorem rest_of_takeWhile_eq_nil (p : Str) (h : p.takeWhile (fun x => x != '/') = []) :
    p = [] ∨ p.head? = some '/' := by
  cases p with
  | nil => exact Or.inl rfl
  | cons c q =>
    right
    by_cases hc : c = '/'
    · subst hc
      rfl
    · have hc' : (c != '/') = true := by simpa using hc
      rw [List.takeWhile_cons, if_pos hc'] at h
      exact absurd h (by simp)

theorem dropWhile_of_rest (p : Str) (h : p = [] ∨ p.head? = some '/') :
    p.dropWhile (fun x => x != '/') = p := by
  cases p with
  | nil => rfl
  | cons c q =>
    rcases h with h | h
    · exact absurd h (by simp)
    · simp only [List.head?_cons, Option.some.injEq] at h
      subst h
      rfl

/-- The elements of an element followed by nothing or by a slash and more. -/
theorem splitSlash_elem (e q : Str) (he : '/' ∉ e) (hq : q = [] ∨ q.head? = some '/') :
    splitSlash (e ++ q) = e :: restElems q := by
  induction e with
  | nil =>
    cases q with
    | nil => rfl
    | cons c r =>
      rcases hq with hq | hq
      · exact absurd hq (by simp)
      · simp only [List.head?_cons, Option.some.injEq] at hq
        subst hq
        exact splitSlash_slash r
  | cons c e ih =>
    have hc : c ≠ '/' := fun hh => he (hh ▸ List.mem_cons_self _ _)
    have he' : '/' ∉ e := fun hh => he (List.mem_cons_of_mem _ hh)
    rw [List.cons_append, splitSlash_cons c _ hc, ih he']
    rfl

theorem foldl_splitSlash_elem (rooted : Bool) (st : CleanState) (e q : Str) (he : '/' ∉ e)
    (hq : q = [] ∨ q.head? = some '/') :
    (splitSlash (e ++ q)).foldl (cleanStep rooted) st =
      (splitSlash q).foldl (cleanStep rooted) (cleanStep rooted st e) := by
  rw [splitSlash_elem e q he hq, List.foldl_cons, foldl_cleanStep_rest rooted _ q hq]

theorem not_slash_mem_takeWhile (p : Str) : '/' ∉ p.takeWhile (fun x => x != '/') := by
  intro h
  have := List.mem_takeWhile_imp h
  simp at this

/-- The loop of `path.Clean` is the fold of `cleanStep` over the elements of the path. -/
theorem cleanLoop_eq_foldl (rooted : Bool) (fuel : Nat) (p : Str) (st : CleanState)
    (h : p.length ≤ fuel) :
    cleanLoop rooted fuel p st = (splitSlash p).foldl (cleanStep rooted) st := by
  induction fuel generalizing p st with
  | zero =>
    have hp : p = [] := List.length_eq_zero.mp (Nat.le_zero.mp h)
    subst hp
    rfl
  | succ fuel ih =>
    cases p with
    | nil => rfl
    | cons c q =>
      have hq : q.length ≤ fuel := by
        rw [List.length_cons] at h
        omega
      rw [cleanLoop]
      by_cases h1 : c = '/'
      · subst h1
        rw [if_pos rfl, ih q st hq, foldl_cleanStep_splitSlash_slash]
      · rw [if_neg h1]
        by_cases h2 : c = '.' ∧ (q = [] ∨ q.head? = some '/')
        · rw [if_pos h2, ih q st hq]
          obtain ⟨rfl, hrest⟩ := h2
          have := foldl_splitSlash_elem rooted st ['.'] q (by decide) hrest
          rw [List.singleton_append] at this
          rw [this]
          rfl
        · rw [if_neg h2]
          by_cases h3 : c = '.' ∧ q.head? = some '.' ∧ (q.tail = [] ∨ q.tail.head? = some '/')
          · rw [if_pos h3]
            obtain ⟨rfl, hhead, hrest⟩ := h3
            cases q with
            | nil => exact absurd hhead (by simp)
            | cons d r =>
              simp only [List.head?_cons, Option.some.injEq] at hhead
              subst hhead
              rw [List.tail_cons] at hrest ⊢
              have hr : r.length ≤ fuel := by
                rw [List.length_cons] at hq
                omega
              rw [ih r _ hr]
              have := foldl_splitSlash_elem rooted st ['.', '.'] r (by decide) hrest
              rw [show ['.', '.'] ++ r = '.' :: '.' :: r from rfl] at this
              rw [this]
              rfl
          · rw [if_neg h3]
            have hc : (c != '/') = true := by simpa using h1
            have hdrop : (c :: q).dropWhile (fun x => x != '/') =
                q.dropWhile (fun x => x != '/') := by
              rw [List.dropWhile_cons, if_pos hc]
            have htake : (c :: q).takeWhile (fun x => x != '/') =
                c :: q.takeWhile (fun x => x != '/') := by
              rw [List.takeWhile_cons, if_pos hc]
            have hlen : ((c :: q).dropWhile (fun x => x != '/')).length ≤ fuel := by
              rw [hdrop]
              exact Nat.le_trans (List.dropWhile_sublist _).length_le hq
            simp only []
            rw [ih _ _ hlen]
            have hsplit := foldl_splitSlash_elem rooted st
              ((c :: q).takeWhile (fun x => x != '/')) ((c :: q).dropWhile (fun x => x != '/'))
              (not_slash_mem_takeWhile _) (dropWhile_not_slash _)
            rw [List.takeWhile_append_dropWhile] at hsplit
            rw [hsplit]
            congr 1
            have hne1 : ¬ ((c :: q).takeWhile (fun x => x != '/') = [] ∨
                (c :: q).takeWhile (fun x => x != '/') = ['.']) := by
              rw [htake]
              rintro (hh | hh)
              · exact absurd hh (by simp)
              · simp only [List.cons.injEq] at hh
                exact h2 ⟨hh.1, rest_of_takeWhile_eq_nil q hh.2⟩
            have hne2 : ¬ ((c :: q).takeWhile (fun x => x != '/') = ['.', '.']) := by
              rw [htake]
              intro hh
              simp only [List.cons.injEq] at hh
              obtain ⟨hc1, hq1⟩ := hh
              cases q with
              | nil => simp at hq1
              | cons d r =>
                by_cases hd : d = '/'
                · subst hd
                  simp at hq1
                · have hd' : (d != '/') = true := by simpa using hd
                  rw [List.takeWhile_cons, if_pos hd'] at hq1
                  simp only [List.cons.injEq] at hq1
                  exact h3 ⟨hc1, by rw [hq1.1]; rfl, rest_of_takeWhile_eq_nil r hq1.2⟩
            rw [cleanStep, if_neg hne1, if_neg hne2]

theorem clean_relative (p : Str) (hne : p ≠ []) (hrel : p.head? ≠ some '/') :
    path.Clean p = cleanFinish ((splitSlash p).foldl (cleanStep false) ⟨[], 0⟩) := by
  unfold path.Clean cleanFinish
  rw [if_neg hne]
  have hr : decide (p.head? = some '/') = false := decide_eq_false hrel
  simp only [hr, Bool.false_eq_true, if_false]
  rw [cleanLoop_eq_foldl false p.length p _ (Nat.le_refl _)]

theorem clean_rooted (q : Str) :
    path.Clean ('/' :: q) = cleanFinish ((splitSlash q).foldl (cleanStep true) ⟨['/'], 1⟩) := by
  unfold path.Clean cleanFinish
  rw [if_neg (by simp)]
  have hr : decide (('/' :: q).head? = some '/') = true := decide_eq_true rfl
  simp only [hr, if_true, List.tail_cons]
  rw [cleanLoop_eq_foldl true _ q _ (by simp)]

theorem cleanStep_skip (rooted : Bool) (st : CleanState) (e : Str) (h : e = [] ∨ e = ['.']) :
    cleanStep rooted st e = st := by
  rw [cleanStep, if_pos h]

theorem cleanStep_normal (rooted : Bool) (st : CleanState) (e : Str) (h : normalElem e) :
    cleanStep rooted st e =
      { st with
        out := e.reverse ++
          (if (rooted && st.out.length != 1) || (!rooted && st.out.length != 0) then
            '/' :: st.out
          else
            st.out) } := by
  obtain ⟨h1, _, h3, h4⟩ := h
  rw [cleanStep, if_neg (by rintro (hh | hh); exact h1 hh; exact h3 hh), if_neg h4]

theorem splitSlash_no_slash (e : Str) (he : '/' ∉ e) : splitSlash e = [e] := by
  have := splitSlash_elem e [] he (Or.inl rfl)
  rw [List.append_nil] at this
  exact this

theorem splitSlash_append_slash (a b : Str) :
    splitSlash (a ++ '/' :: b) = splitSlash a ++ splitSlash b := by
  induction a with
  | nil => rw [List.nil_append, splitSlash_slash]; rfl
  | cons c a ih =>
    by_cases hc : c = '/'
    · subst hc
      rw [List.cons_append, splitSlash_slash, splitSlash_slash, ih, List.cons_append]
    · rw [List.cons_append, splitSlash_cons c _ hc, splitSlash_cons c _ hc, ih]
      cases hsa : splitSlash a with
      | nil => exact absurd hsa (splitSlash_ne_nil a)
      | cons x xs => rfl

theorem mem_splitSlash_no_slash (p e : Str) (h : e ∈ splitSlash p) : '/' ∉ e := by
  induction p generalizing e with
  | nil =>
    simp only [splitSlash, List.mem_singleton] at h
    subst h
    simp
  | cons c p ih =>
    by_cases hc : c = '/'
    · subst hc
      rw [splitSlash_slash, List.mem_cons] at h
      rcases h with rfl | h
      · simp
      · exact ih e h
    · rw [splitSlash_cons c p hc] at h
      cases hsp : splitSlash p with
      | nil => exact absurd hsp (splitSlash_ne_nil p)
      | cons x xs =>
        rw [hsp] at h ih
        simp only [List.headD_cons, List.tail_cons, List.mem_cons] at h
        rcases h with rfl | h
        · intro hm
          rw [List.mem_cons] at hm
          rcases hm with hm | hm
          · exact hc hm.symm
          · exact ih x (List.mem_cons_self _ _) hm
        · exact ih e (List.mem_cons_of_mem _ h)

theorem joinSlash_cons_cons (e f : Str) (es : List Str) :
    joinSlash (e :: f :: es) = e ++ '/' :: joinSlash (f :: es) := by
  simp [joinSlash, List.intercalate, List.intersperse, List.flatten]

theorem joinSlash_singleton (e : Str) : joinSlash [e] = e := by
  simp [joinSlash, List.intercalate, List.intersperse, List.flatten]

theorem joinSlash_nil : joinSlash [] = [] := rfl

theorem joinSlash_append_singleton (es : List Str) (e : Str) (h : es ≠ []) :
    joinSlash (es ++ [e]) = joinSlash es ++ '/' :: e := by
  induction es with
  | nil => exact absurd rfl h
  | cons x xs ih =>
    cases xs with
    | nil => rw [List.singleton_append, joinSlash_cons_cons, joinSlash_singleton,
        joinSlash_singleton]
    | cons y ys =>
      rw [List.cons_append, List.cons_append, joinSlash_cons_cons, ← List.cons_append,
        ih (by simp), joinSlash_cons_cons, List.append_assoc, List.cons_append]

theorem joinSlash_append (xs ys : List Str) (hx : xs ≠ []) (hy : ys ≠ []) :
    joinSlash (xs ++ ys) = joinSlash xs ++ '/' :: joinSlash ys := by
  induction xs with
  | nil => exact absurd rfl hx
  | cons x xs ih =>
    cases xs with
    | nil =>
      cases ys with
      | nil => exact absurd rfl hy
      | cons y ys => rw [List.singleton_append, joinSlash_cons_cons, joinSlash_singleton]
    | cons z zs =>
      rw [List.cons_append, List.cons_append, joinSlash_cons_cons, ← List.cons_append,
        ih (by simp), joinSlash_cons_cons, List.append_assoc, List.cons_append]

theorem splitSlash_joinSlash (es : List Str) (hne : es ≠ []) (h : ∀ e ∈ es, '/' ∉ e) :
    splitSlash (joinSlash es) = es := by
  induction es with
  | nil => exact absurd rfl hne
  | cons x xs ih =>
    cases xs with
    | nil =>
      rw [joinSlash_singleton]
      exact splitSlash_no_slash x (h x (List.mem_cons_self _ _))
    | cons y ys =>
      rw [joinSlash_cons_cons, splitSlash_append_slash,
        splitSlash_no_slash x (h x (List.mem_cons_self _ _)),
        ih (by simp) (fun e he => h e (List.mem_cons_of_mem _ he))]
      rfl

/-! ## The loop of `path.Clean` on a relative path -/

theorem cleanBacktrack_elem (dd : Nat) (t x : List Char) (ht : '/' ∉ t) (hx : dd ≤ x.length) :
    cleanBacktrack dd (t ++ '/' :: x) = x := by
  induction t with
  | nil =>
    rw [List.nil_append, cleanBacktrack, if_neg (by simp)]
  | cons c t ih =>
    have hc : c ≠ '/' := fun hh => ht (hh ▸ List.mem_cons_self _ _)
    rw [List.cons_append, cleanBacktrack, if_pos ⟨by simp; omega, hc⟩]
    exact ih (fun hh => ht (List.mem_cons_of_mem _ hh))

theorem cleanBacktrack_zero (t : List Char) (ht : '/' ∉ t) : cleanBacktrack 0 t = [] := by
  induction t with
  | nil => rfl
  | cons c t ih =>
    have hc : c ≠ '/' := fun hh => ht (hh ▸ List.mem_cons_self _ _)
    rw [cleanBacktrack]
    by_cases hl : t.length > 0
    · rw [if_pos ⟨hl, hc⟩]
      exact ih (fun hh => ht (List.mem_cons_of_mem _ hh))
    · rw [if_neg (fun hh => hl hh.1)]
      exact List.length_eq_zero.mp (by omega)

theorem render_nil_nil : render 0 [] = [] := rfl

theorem render_ups_succ (u : Nat) :
    render (u + 1) [] = if u = 0 then ['.', '.'] else render u [] ++ ['/', '.', '.'] := by
  unfold render
  rw [List.append_nil, List.append_nil, List.replicate_succ']
  by_cases hu : u = 0
  · subst hu
    rw [if_pos rfl]
    rfl
  · rw [if_neg hu, joinSlash_append_singleton _ _ (by
      intro h
      have := congrArg List.length h
      simp at this
      exact hu this)]

theorem render_snoc (u : Nat) (segs : List Str) (e : Str) :
    render u (segs ++ [e]) =
      if render u segs = [] ∧ u = 0 ∧ segs = [] then e else render u segs ++ '/' :: e := by
  unfold render
  by_cases h : List.replicate u ['.', '.'] ++ segs = []
  · have hu : u = 0 := by
      have := congrArg List.length h
      simp at this
      exact this.1
    have hs : segs = [] := (List.append_eq_nil.mp h).2
    subst hu hs
    rw [if_pos ⟨rfl, rfl, rfl⟩]
    exact joinSlash_singleton e
  · rw [if_neg (fun hh => h (by rw [hh.2.1, hh.2.2]; rfl)), ← List.append_assoc,
      joinSlash_append_singleton _ _ h]

theorem render_eq_append (u : Nat) (segs : List Str) :
    ∃ x, render u segs = render u [] ++ x ∧ (segs = [] → x = []) ∧
      ((∀ e ∈ segs, e ≠ []) → segs ≠ [] → x ≠ []) := by
  induction segs using List.reverseRecOn with
  | nil => exact ⟨[], by rw [List.append_nil], fun _ => rfl, fun _ h => absurd rfl h⟩
  | append_singleton segs e ih =>
    obtain ⟨x, hx, _, _⟩ := ih
    rw [render_snoc]
    by_cases h : render u segs = [] ∧ u = 0 ∧ segs = []
    · rw [if_pos h]
      obtain ⟨_, hu, _⟩ := h
      subst hu
      refine ⟨e, by rw [render_nil_nil, List.nil_append], fun hh => absurd hh (by simp), ?_⟩
      intro hne _
      exact hne e (by simp)
    · rw [if_neg h, hx, List.append_assoc]
      exact ⟨x ++ '/' :: e, rfl, fun hh => absurd hh (by simp), fun _ _ => by simp⟩

theorem render_length_ge (u : Nat) (segs : List Str) :
    (render u []).length ≤ (render u segs).length := by
  obtain ⟨x, hx, _⟩ := render_eq_append u segs
  rw [hx, List.length_append]
  omega

theorem render_length_gt (u : Nat) (segs : List Str) (hne : ∀ e ∈ segs, e ≠ [])
    (hs : segs ≠ []) : (render u []).length < (render u segs).length := by
  obtain ⟨x, hx, _, hx2⟩ := render_eq_append u segs
  have := List.length_pos.mpr (hx2 hne hs)
  rw [hx, List.length_append]
  omega

theorem render_eq_nil_iff (u : Nat) (segs : List Str) (hne : ∀ e ∈ segs, e ≠ []) :
    render u segs = [] ↔ u = 0 ∧ segs = [] := by
  constructor
  · intro h
    have hs : segs = [] := by
      by_contra hs
      have := render_length_gt u segs hne hs
      rw [h] at this
      simp at this
    subst hs
    refine ⟨?_, rfl⟩
    cases u with
    | zero => rfl
    | succ u =>
      rw [render_ups_succ] at h
      split at h <;> simp at h
  · rintro ⟨rfl, rfl⟩
    rfl

theorem cleanStep_abs_normal (u : Nat) (segs : List Str) (e : Str)
    (hne : ∀ x ∈ segs, x ≠ []) (he : normalElem e) :
    cleanStep false (absState u segs) e = absState u (segs ++ [e]) := by
  rw [cleanStep_normal false _ e he]
  have hsnoc := render_snoc u segs e
  by_cases h : render u segs = []
  · have h2 := (render_eq_nil_iff u segs hne).mp h
    rw [if_pos ⟨h, h2.1, h2.2⟩] at hsnoc
    unfold absState
    rw [hsnoc, h]
    simp
  · rw [if_neg (fun hh => h hh.1)] at hsnoc
    have hl : ((render u segs).reverse.length != 0) = true := by
      simpa using h
    unfold absState
    rw [hsnoc]
    simp only [Bool.false_and, Bool.not_false, Bool.true_and, Bool.false_or, hl, if_true,
      List.reverse_append, List.reverse_cons, List.append_assoc, List.singleton_append]

theorem cleanStep_abs_pop (u : Nat) (segs : List Str) (e : Str)
    (hne : ∀ x ∈ segs, x ≠ []) (he : normalElem e) :
    cleanStep false (absState u (segs ++ [e])) ['.', '.'] = absState u segs := by
  have hne' : ∀ x ∈ segs ++ [e], x ≠ [] := by
    intro x hx
    rw [List.mem_append, List.mem_singleton] at hx
    rcases hx with hx | rfl
    · exact hne x hx
    · exact he.1
  have hgt := render_length_gt u (segs ++ [e]) hne' (by simp)
  rw [cleanStep, if_neg (by decide), if_pos rfl]
  unfold absState
  simp only [List.length_reverse]
  rw [if_pos hgt]
  congr 1
  rw [render_snoc]
  by_cases h : render u segs = [] ∧ u = 0 ∧ segs = []
  · rw [if_pos h]
    obtain ⟨h1, rfl, rfl⟩ := h
    rw [render_nil_nil]
    exact cleanBacktrack_zero _ (by simpa using he.2.1)
  · rw [if_neg h, List.reverse_append, List.reverse_cons, List.append_assoc,
      List.singleton_append]
    exact cleanBacktrack_elem _ _ _ (by simpa using he.2.1)
      (by rw [List.length_reverse]; exact render_length_ge u segs)

theorem cleanStep_abs_push (u : Nat) :
    cleanStep false (absState u []) ['.', '.'] = absState (u + 1) [] := by
  rw [cleanStep, if_neg (by decide), if_pos rfl]
  unfold absState
  simp only [List.length_reverse, Nat.lt_irrefl, if_false, Bool.not_false, if_true]
  rw [render_ups_succ]
  by_cases hu : u = 0
  · subst hu
    simp [render_nil_nil]
  · have hpos : (render u []).length > 0 := by
      apply List.length_pos.mpr
      intro h
      exact hu ((render_eq_nil_iff u [] (by simp)).mp h).1
    rw [if_pos hpos, if_neg hu]
    simp

theorem absState_zero : absState 0 [] = ⟨[], 0⟩ := rfl

/-- Elements that `path.Clean` keeps are appended to the output. -/
theorem foldl_abs_normal (u : Nat) (segs es : List Str) (hne : ∀ x ∈ segs, x ≠ [])
    (hes : ∀ e ∈ es, normalElem e) :
    es.foldl (cleanStep false) (absState u segs) = absState u (segs ++ es) := by
  induction es generalizing segs with
  | nil => rw [List.append_nil]; rfl
  | cons e es ih =>
    rw [List.foldl_cons, cleanStep_abs_normal u segs e hne (hes e (List.mem_cons_self _ _)),
      ih (segs ++ [e]) ?_ (fun x hx => hes x (List.mem_cons_of_mem _ hx)), List.append_assoc]
    · rfl
    · intro x hx
      rw [List.mem_append, List.mem_singleton] at hx
      rcases hx with hx | rfl
      · exact hne x hx
      · exact (hes _ (List.mem_cons_self _ _)).1

/-- As many elements `..` as there are kept elements in `es` remove them again. -/
theorem foldl_abs_pop (u : Nat) (segs es : List Str) (hne : ∀ x ∈ segs, x ≠ [])
    (hes : ∀ e ∈ es, normalElem e) :
    (List.replicate es.length ['.', '.']).foldl (cleanStep false) (absState u (segs ++ es)) =
      absState u segs := by
  induction es using List.reverseRecOn with
  | nil => rw [List.append_nil]; rfl
  | append_singleton es e ih =>
    rw [List.length_append, List.length_singleton, List.replicate_succ, List.foldl_cons,
      ← List.append_assoc, cleanStep_abs_pop u (segs ++ es) e ?_ (hes e (by simp))]
    · exact ih (fun x hx => hes x (by simp [hx]))
    · intro x hx
      rw [List.mem_append] at hx
      rcases hx with hx | hx
      · exact hne x hx
      · exact (hes x (by simp [hx])).1

theorem foldl_abs_ups (u k : Nat) :
    (List.replicate k ['.', '.']).foldl (cleanStep false) (absState u []) =
      absState (u + k) [] := by
  induction k generalizing u with
  | zero => rfl
  | succ k ih =>
    rw [List.replicate_succ, List.foldl_cons, cleanStep_abs_push, ih, Nat.add_assoc,
      Nat.add_comm 1 k]

/-- The loop of `path.Clean` on a relative path keeps its output in the form of
elements `..` followed by kept elements. -/
theorem foldl_abs_exists (u : Nat) (segs es : List Str) (hsegs : ∀ x ∈ segs, normalElem x)
    (hes : ∀ e ∈ es, '/' ∉ e) :
    ∃ u1 segs1, (∀ x ∈ segs1, normalElem x) ∧
      es.foldl (cleanStep false) (absState u segs) = absState u1 segs1 := by
  induction es generalizing u segs with
  | nil => exact ⟨u, segs, hsegs, rfl⟩
  | cons e es ih =>
    have hes' : ∀ x ∈ es, '/' ∉ x := fun x hx => hes x (List.mem_cons_of_mem _ hx)
    have hne : ∀ x ∈ segs, x ≠ [] := fun x hx => (hsegs x hx).1
    rw [List.foldl_cons]
    by_cases h1 : e = [] ∨ e = ['.']
    · rw [cleanStep_skip false _ e h1]
      exact ih u segs hsegs hes'
    · by_cases h2 : e = ['.', '.']
      · subst h2
        rcases List.eq_nil_or_concat segs with rfl | ⟨segs0, s, rfl⟩
        · rw [cleanStep_abs_push]
          exact ih (u + 1) [] (by simp) hes'
        · rw [List.concat_eq_append] at hsegs ⊢
          rw [cleanStep_abs_pop u segs0 s (fun x hx => (hsegs x (by simp [hx])).1)
            (hsegs s (by simp))]
          exact ih u segs0 (fun x hx => hsegs x (by simp [hx])) hes'
      · have hn : normalElem e :=
          ⟨fun hh => h1 (Or.inl hh), hes e (List.mem_cons_self _ _),
            fun hh => h1 (Or.inr hh), h2⟩
        rw [cleanStep_abs_normal u segs e hne hn]
        refine ih u (segs ++ [e]) ?_ hes'
        intro x hx
        rw [List.mem_append, List.mem_singleton] at hx
        rcases hx with hx | rfl
        · exact hsegs x hx
        · exact hn

theorem cleanFinish_abs (u : Nat) (segs : List Str) :
    cleanFinish (absState u segs) = if render u segs = [] then str "." else render u segs := by
  unfold cleanFinish absState
  simp only [List.length_reverse, List.reverse_reverse, List.length_eq_zero]

theorem joinSlash_cons_eq (f : Str) (es : List Str) : ∃ r, joinSlash (f :: es) = f ++ r := by
  cases es with
  | nil => exact ⟨[], by rw [joinSlash_singleton, List.append_nil]⟩
  | cons g gs => exact ⟨_, joinSlash_cons_cons f g gs⟩

theorem dotdot_normalish : (['.', '.'] : Str) ≠ [] ∧ '/' ∉ (['.', '.'] : Str) := by decide

theorem render_elems (u : Nat) (segs : List Str) (hsegs : ∀ x ∈ segs, normalElem x) :
    ∀ e ∈ List.replicate u ['.', '.'] ++ segs, e ≠ [] ∧ '/' ∉ e := by
  intro e he
  rw [List.mem_append] at he
  rcases he with he | he
  · rw [(List.mem_replicate.mp he).2]
    exact dotdot_normalish
  · exact ⟨(hsegs e he).1, (hsegs e he).2.1⟩

theorem render_head (u : Nat) (segs : List Str) (hsegs : ∀ x ∈ segs, normalElem x) :
    (render u segs).head? ≠ some '/' := by
  unfold render
  cases hl : List.replicate u ['.', '.'] ++ segs with
  | nil => simp [joinSlash_nil]
  | cons f es =>
    obtain ⟨r, hr⟩ := joinSlash_cons_eq f es
    have hf := render_elems u segs hsegs f (by rw [hl]; exact List.mem_cons_self _ _)
    rw [hr]
    cases f with
    | nil => exact absurd rfl hf.1
    | cons c f =>
      rw [List.cons_append, List.head?_cons]
      intro hh
      rw [Option.some.injEq] at hh
      exact hf.2 (hh ▸ List.mem_cons_self _ _)

/-- A relative path in the form that `path.Clean` gives is unchanged by `path.Clean`. -/
theorem clean_render (u : Nat) (segs : List Str) (hsegs : ∀ x ∈ segs, normalElem x)
    (hne : render u segs ≠ []) : path.Clean (render u segs) = render u segs := by
  have hnil : List.replicate u ['.', '.'] ++ segs ≠ [] := by
    intro h
    apply hne
    unfold render
    rw [h]
    rfl
  rw [clean_relative _ hne (render_head u segs hsegs)]
  have hsplit : splitSlash (render u segs) = List.replicate u ['.', '.'] ++ segs :=
    splitSlash_joinSlash _ hnil (fun e he => (render_elems u segs hsegs e he).2)
  rw [hsplit, List.foldl_append, ← absState_zero, foldl_abs_ups, Nat.zero_add,
    foldl_abs_normal u [] segs (by simp) hsegs, List.nil_append, cleanFinish_abs, if_neg hne]

/-- The form of what `path.Clean` gives for a relative path. -/
theorem clean_relative_form (p : Str) (hne : p ≠ []) (hrel : p.head? ≠ some '/') :
    ∃ u segs, (∀ x ∈ segs, normalElem x) ∧
      (splitSlash p).foldl (cleanStep false) ⟨[], 0⟩ = absState u segs ∧
      path.Clean p = if render u segs = [] then str "." else render u segs := by
  obtain ⟨u, segs, hsegs, hfold⟩ := foldl_abs_exists 0 [] (splitSlash p) (by simp)
    (fun e he => mem_splitSlash_no_slash p e he)
  rw [absState_zero] at hfold
  refine ⟨u, segs, hsegs, hfold, ?_⟩
  rw [clean_relative p hne hrel, hfold, cleanFinish_abs]

theorem clean_dot : path.Clean (str ".") = str "." := by decide

/-- On relative paths `path.Clean` is idempotent. -/
theorem clean_idem_relative (p : Str) (hne : p ≠ []) (hrel : p.head? ≠ some '/') :
    path.Clean (path.Clean p) = path.Clean p := by
  obtain ⟨u, segs, hsegs, _, hc⟩ := clean_relative_form p hne hrel
  rw [hc]
  by_cases h : render u segs = []
  · rw [if_pos h]
    exact clean_dot
  · rw [if_neg h]
    exact clean_render u segs hsegs h

theorem clean_relative_head (p : Str) (hne : p ≠ []) (hrel : p.head? ≠ some '/') :
    (path.Clean p).head? ≠ some '/' ∧ path.Clean p ≠ [] := by
  obtain ⟨u, segs, hsegs, _, hc⟩ := clean_relative_form p hne hrel
  rw [hc]
  by_cases h : render u segs = []
  · rw [if_pos h]
    decide
  · rw [if_neg h]
    exact ⟨render_head u segs hsegs, h⟩

/-! ## The document path and its directory -/

/-- Without elements `..`, the loop of `path.Clean` appends the elements it keeps. -/
theorem foldl_abs_no_dotdot (u : Nat) (segs es : List Str) (hsegs : ∀ x ∈ segs, normalElem x)
    (hes : ∀ e ∈ es, '/' ∉ e) (hdd : ['.', '.'] ∉ es) :
    es.foldl (cleanStep false) (absState u segs) =
      absState u (segs ++ es.filter (fun e => decide (normalElem e))) := by
  induction es generalizing segs with
  | nil => rw [List.filter_nil, List.append_nil]; rfl
  | cons e es ih =>
    have hes' : ∀ x ∈ es, '/' ∉ x := fun x hx => hes x (List.mem_cons_of_mem _ hx)
    have hdd' : ['.', '.'] ∉ es := fun hh => hdd (List.mem_cons_of_mem _ hh)
    rw [List.foldl_cons, List.filter_cons]
    by_cases hn : normalElem e
    · rw [cleanStep_abs_normal u segs e (fun x hx => (hsegs x hx).1) hn, if_pos (decide_eq_true hn),
        ih (segs ++ [e]) ?_ hes' hdd', List.append_assoc]
      · rfl
      · intro x hx
        rw [List.mem_append, List.mem_singleton] at hx
        rcases hx with hx | rfl
        · exact hsegs x hx
        · exact hn
    · have hskip : e = [] ∨ e = ['.'] := by
        by_contra hc
        apply hn
        refine ⟨fun hh => hc (Or.inl hh), hes e (List.mem_cons_self _ _),
          fun hh => hc (Or.inr hh), ?_⟩
        intro hh
        exact hdd (hh ▸ List.mem_cons_self _ _)
      rw [cleanStep_skip false _ e hskip, if_neg (by simpa using hn)]
      exact ih segs hsegs hes' hdd'

theorem normal_pkg : normalElem (str "pkg") := by decide

theorem normal_index : normalElem (str "index.html") := by decide

theorem joinBuf_two (d x : Str) (hd : d ≠ []) : path.joinBuf [] [d, x] = d ++ '/' :: x := by
  have hl : d.length > 0 := List.length_pos.mpr hd
  rw [path.joinBuf, if_pos (Or.inr hd), if_neg (by simp), List.nil_append,
    path.joinBuf, if_pos (Or.inl hl), if_pos hl, path.joinBuf, List.append_assoc,
    List.singleton_append]

theorem join_two (d x : Str) (hd : d ≠ []) : path.Join [d, x] = path.Clean (d ++ '/' :: x) := by
  have hl : d.length > 0 := List.length_pos.mpr hd
  rw [path.Join, if_neg (by
    simp only [List.map_cons, List.map_nil, List.sum_cons, List.sum_nil]
    omega), joinBuf_two d x hd]

theorem getDocumentPath_eq (packageName : Str) :
    getDocumentPath packageName =
      path.Clean (str "pkg" ++ '/' :: (packageName ++ '/' :: str "index.html")) := by
  have hpkg : str "pkg" ≠ [] := by decide
  have hl : (str "pkg").length > 0 := by decide
  have hl2 : (str "pkg" ++ ['/'] ++ packageName).length > 0 := by
    rw [List.length_append, List.length_append]
    omega
  unfold getDocumentPath path.Join
  rw [if_neg (by
    simp only [List.map_cons, List.map_nil, List.sum_cons, List.sum_nil]
    omega)]
  congr 1
  rw [path.joinBuf, if_pos (Or.inr hpkg), if_neg (by simp), List.nil_append,
    path.joinBuf, if_pos (Or.inl hl), if_pos hl, path.joinBuf, if_pos (Or.inl hl2), if_pos hl2,
    path.joinBuf]
  simp only [List.append_assoc, List.singleton_append, List.cons_append, List.nil_append]

theorem splitDir_append (d f : Str) (hf : '/' ∉ f) : path.splitDir (d ++ '/' :: f) = d ++ ['/'] := by
  unfold path.splitDir
  rw [List.reverse_append, List.reverse_cons, List.append_assoc, List.dropWhile_append]
  have h1 : List.dropWhile (fun c => c != '/') f.reverse = [] := by
    rw [List.dropWhile_eq_nil_iff]
    intro x hx
    have : x ≠ '/' := fun hh => hf (hh ▸ List.mem_reverse.mp hx)
    simpa using this
  rw [h1]
  simp

/-- The names of the elements kept from a package name. -/
theorem filter_normal (es : List Str) :
    ∀ x ∈ es.filter (fun e => decide (normalElem e)), normalElem x := by
  intro x hx
  exact of_decide_eq_true (List.mem_filter.mp hx).2

/-- For a package name without an element `..`, the document path is
`pkg/<kept elements>/index.html` and its directory is `pkg/<kept elements>`. -/
theorem documentDir_eq (packageName : Str) (hdd : ['.', '.'] ∉ splitSlash packageName) :
    path.Dir (getDocumentPath packageName) =
      joinSlash (str "pkg" ::
        (splitSlash packageName).filter (fun e => decide (normalElem e))) := by
  have hN := filter_normal (splitSlash packageName)
  generalize hNdef : (splitSlash packageName).filter (fun e => decide (normalElem e)) = N at hN
  have hpkgN : ∀ x ∈ str "pkg" :: N, normalElem x := by
    intro x hx
    rw [List.mem_cons] at hx
    rcases hx with rfl | hx
    · exact normal_pkg
    · exact hN x hx
  have hne : render 0 (str "pkg" :: N) ≠ [] := by
    intro h
    have := (render_eq_nil_iff 0 _ (fun x hx => (hpkgN x hx).1)).mp h
    simp at this
  have hsnoc : render 0 (str "pkg" :: N ++ [str "index.html"]) =
      render 0 (str "pkg" :: N) ++ '/' :: str "index.html" := by
    rw [render_snoc, if_neg (fun hh => hne hh.1)]
  have hdoc : getDocumentPath packageName =
      joinSlash (str "pkg" :: N) ++ '/' :: str "index.html" := by
    rw [getDocumentPath_eq, clean_relative _ (by simp [str]) (by simp [str]),
      splitSlash_append_slash, splitSlash_append_slash,
      splitSlash_no_slash (str "pkg") normal_pkg.2.1,
      splitSlash_no_slash (str "index.html") normal_index.2.1, List.foldl_append,
      List.foldl_append, ← absState_zero,
      foldl_abs_normal 0 [] [str "pkg"] (by simp) (by simpa using normal_pkg), List.nil_append,
      foldl_abs_no_dotdot 0 [str "pkg"] (splitSlash packageName) (by simpa using normal_pkg)
        (fun e he => mem_splitSlash_no_slash _ e he) hdd, hNdef, List.singleton_append,
      foldl_abs_normal 0 _ [str "index.html"] (fun x hx => (hpkgN x hx).1)
        (by simpa using normal_index), cleanFinish_abs, hsnoc, if_neg (by simp)]
    rfl
  unfold path.Dir
  rw [hdoc, splitDir_append _ _ normal_index.2.1]
  have hrender : joinSlash (str "pkg" :: N) = render 0 (str "pkg" :: N) := rfl
  rw [hrender, clean_relative _ (by simp) ?_, show render 0 (str "pkg" :: N) ++ ['/'] =
      render 0 (str "pkg" :: N) ++ '/' :: [] from rfl, splitSlash_append_slash]
  · have hsplit : splitSlash (render 0 (str "pkg" :: N)) = str "pkg" :: N :=
      splitSlash_joinSlash _ (by simp) (fun e he => (hpkgN e he).2.1)
    rw [hsplit, List.foldl_append, ← absState_zero,
      foldl_abs_normal 0 [] _ (by simp) hpkgN, List.nil_append]
    show cleanFinish (cleanStep false (absState 0 (str "pkg" :: N)) []) = _
    rw [cleanStep_skip false _ [] (Or.inl rfl), cleanFinish_abs, if_neg hne]
  · have := render_head 0 (str "pkg" :: N) hpkgN
    cases hr : render 0 (str "pkg" :: N) with
    | nil => exact absurd hr hne
    | cons c r =>
      rw [hr] at this
      exact this

/-! ## The loop of `filepath.Rel` -/

theorem takeWhile_no_slash (e r : Str) (he : '/' ∉ e) (hr : r = [] ∨ r.head? = some '/') :
    (e ++ r).takeWhile (fun x => x != '/') = e := by
  induction e with
  | nil => exact takeWhile_eq_nil_of_rest r hr
  | cons c e ih =>
    have hc : (c != '/') = true := by
      have : c ≠ '/' := fun hh => he (hh ▸ List.mem_cons_self _ _)
      simpa using this
    rw [List.cons_append, List.takeWhile_cons, if_pos hc,
      ih (fun hh => he (List.mem_cons_of_mem _ hh))]

theorem joinSlash_cons_split (e : Str) (es : List Str) :
    ∃ r, joinSlash (e :: es) = e ++ r ∧ (r = [] ∨ r.head? = some '/') ∧
      r.tail = joinSlash es := by
  cases es with
  | nil => exact ⟨[], by rw [joinSlash_singleton, List.append_nil], Or.inl rfl, rfl⟩
  | cons f fs => exact ⟨'/' :: joinSlash (f :: fs), joinSlash_cons_cons e f fs, Or.inr rfl, rfl⟩

theorem drop_takeWhile_succ (t : Str) :
    t.drop ((t.takeWhile (fun x => x != '/')).length + 1) =
      (t.dropWhile (fun x => x != '/')).tail := by
  induction t with
  | nil => rfl
  | cons c t ih =>
    by_cases hc : (c != '/') = true
    · rw [List.takeWhile_cons, if_pos hc, List.dropWhile_cons, if_pos hc, List.length_cons,
        List.drop_succ_cons]
      exact ih
    · rw [List.takeWhile_cons, if_neg hc, List.dropWhile_cons, if_neg hc]
      rfl

theorem foldl_restElems_tail (rooted : Bool) (st : CleanState) (d : Str) :
    (restElems d).foldl (cleanStep rooted) st = (splitSlash d.tail).foldl (cleanStep rooted) st := by
  cases d with
  | nil => rfl
  | cons c d => rfl

theorem joinSlash_ne_nil (e : Str) (es : List Str) (he : e ≠ []) : joinSlash (e :: es) ≠ [] := by
  obtain ⟨r, hr, _⟩ := joinSlash_cons_split e es
  rw [hr]
  intro h
  exact he (List.append_eq_nil.mp h).1

/-- The loop of `filepath.Rel` on a base of kept elements: it passes a common
begin `P` of the elements of the base, and reading the target from there on is
reading the target after `P`. -/
theorem relLoop_spec (B : List Str) (hB : ∀ e ∈ B, normalElem e) (fuel : Nat) (t : Str)
    (hfuel : (joinSlash B).length ≤ fuel) :
    ∃ P B1, B = P ++ B1 ∧
      (filepath.relLoop fuel (joinSlash B) t).2.1 = joinSlash B1 ∧
      ((filepath.relLoop fuel (joinSlash B) t).1 = [] ∨
        (filepath.relLoop fuel (joinSlash B) t).1 ∈ B) ∧
      ∀ st, (splitSlash t).foldl (cleanStep false) st =
        (splitSlash (filepath.relLoop fuel (joinSlash B) t).2.2).foldl (cleanStep false)
          (P.foldl (cleanStep false) st) := by
  induction B generalizing fuel t with
  | nil =>
    refine ⟨[], [], rfl, ?_, Or.inl ?_, fun st => ?_⟩ <;>
      cases fuel <;> simp [filepath.relLoop, joinSlash_nil]
  | cons e B ih =>
    have he := hB e (List.mem_cons_self _ _)
    have hne : joinSlash (e :: B) ≠ [] := joinSlash_ne_nil e B he.1
    cases fuel with
    | zero => exact absurd (List.length_eq_zero.mp (Nat.le_zero.mp hfuel)) hne
    | succ fuel =>
      obtain ⟨r, hr, hrest, htail⟩ := joinSlash_cons_split e B
      rw [filepath.relLoop]
      by_cases ht : t = []
      · rw [if_pos (Or.inr ht)]
        exact ⟨[], e :: B, rfl, rfl, Or.inl rfl, fun st => by rw [ht]; rfl⟩
      · rw [if_neg (by rintro (h | h); exact hne h; exact ht h)]
        have htake : (joinSlash (e :: B)).takeWhile (fun x => x != '/') = e := by
          rw [hr]
          exact takeWhile_no_slash e r he.2.1 hrest
        simp only []
        rw [htake, drop_takeWhile_succ]
        by_cases heq : t.takeWhile (fun x => x != '/') = e
        · rw [if_neg (fun hh => hh heq)]
          have hdropB : (joinSlash (e :: B)).drop (e.length + 1) = joinSlash B := by
            rw [hr, ← List.drop_drop, List.drop_left, List.drop_one, htail]
          have hlen : (joinSlash B).length ≤ fuel := by
            have h1 := congrArg List.length hdropB
            rw [List.length_drop] at h1
            omega
          rw [hdropB]
          obtain ⟨P, B1, hP, h1, h2, h3⟩ := ih (fun x hx => hB x (List.mem_cons_of_mem _ hx)) fuel
            (t.dropWhile (fun x => x != '/')).tail hlen
          refine ⟨e :: P, B1, by rw [hP]; rfl, h1, ?_, ?_⟩
          · rcases h2 with h2 | h2
            · exact Or.inl h2
            · exact Or.inr (List.mem_cons_of_mem _ h2)
          · intro st
            rw [List.foldl_cons, ← h3, splitSlash_eq t, List.foldl_cons, heq,
              foldl_restElems_tail]
        · rw [if_pos heq]
          exact ⟨[], e :: B, rfl, rfl, Or.inr (List.mem_cons_self _ _), fun st => rfl⟩

/-! ## A relative reference, resolved against the directory -/

theorem rel_unfold (basepath targpath d c : Str) (hb : path.Clean basepath = d)
    (hc : path.Clean targpath = c) (hne : c ≠ d) (hdot : d ≠ str ".")
    (hds : d.head? ≠ some '/') (hcs : c.head? ≠ some '/') :
    filepath.Rel basepath targpath =
      if (filepath.relLoop d.length d c).1 = str ".." then
        .error (str "Rel: can't make " ++ targpath ++ str " relative to " ++ basepath)
      else if (filepath.relLoop d.length d c).2.1 ≠ [] then
        .ok (str ".." ++
          (List.replicate ((filepath.relLoop d.length d c).2.1.count '/') (str "/..")).flatten ++
          (if (filepath.relLoop d.length d c).2.2 ≠ [] then
            '/' :: (filepath.relLoop d.length d c).2.2
          else
            []))
      else
        .ok (filepath.relLoop d.length d c).2.2 := by
  unfold filepath.Rel filepath.Clean
  simp only [hb, hc, if_neg hne, if_neg hdot]
  rw [if_neg (by simp [hds, hcs])]

theorem ups_eq_render (n : Nat) :
    str ".." ++ (List.replicate n (str "/..")).flatten = render (n + 1) [] := by
  induction n with
  | zero => rfl
  | succ n ih =>
    rw [List.replicate_succ', List.flatten_append, ← List.append_assoc, ih,
      render_ups_succ (n + 1), if_neg (by omega)]
    rfl

theorem count_slash_joinSlash (es : List Str) (hne : es ≠ []) (hes : ∀ e ∈ es, '/' ∉ e) :
    (joinSlash es).count '/' + 1 = es.length := by
  induction es with
  | nil => exact absurd rfl hne
  | cons e es ih =>
    have he : e.count '/' = 0 := List.count_eq_zero.mpr (hes e (List.mem_cons_self _ _))
    cases es with
    | nil => rw [joinSlash_singleton, he]; rfl
    | cons f fs =>
      rw [joinSlash_cons_cons, List.count_append, he, List.count_cons_self, Nat.zero_add,
        ih (by simp) (fun x hx => hes x (List.mem_cons_of_mem _ hx))]
      rfl

theorem joinSlash_eq_nil (es : List Str) (hes : ∀ e ∈ es, e ≠ []) (h : joinSlash es = []) :
    es = [] := by
  cases es with
  | nil => rfl
  | cons e es => exact absurd h (joinSlash_ne_nil e es (hes e (List.mem_cons_self _ _)))

theorem foldl_cleanStep_split_nil (rooted : Bool) (st : CleanState) :
    (splitSlash []).foldl (cleanStep rooted) st = st := rfl

/-- Reading the directory, then the reference that `filepath.Rel` builds, is
reading the common begin `P` and then the rest of the target. -/
theorem foldl_dir_newRef (P B1 : List Str) (tr : Str) (hP : ∀ e ∈ P, normalElem e)
    (hB1 : ∀ e ∈ B1, normalElem e) (hne : P ++ B1 ≠ []) :
    (splitSlash (joinSlash (P ++ B1) ++ '/' ::
      (if B1 ≠ [] then
        render B1.length [] ++ (if tr ≠ [] then '/' :: tr else [])
      else
        tr))).foldl (cleanStep false) ⟨[], 0⟩ =
      (splitSlash tr).foldl (cleanStep false) (P.foldl (cleanStep false) ⟨[], 0⟩) := by
  have hPB : ∀ e ∈ P ++ B1, normalElem e := by
    intro e he
    rw [List.mem_append] at he
    rcases he with he | he
    · exact hP e he
    · exact hB1 e he
  have hsplitD : splitSlash (joinSlash (P ++ B1)) = P ++ B1 :=
    splitSlash_joinSlash _ hne (fun e he => (hPB e he).2.1)
  have hfoldP : P.foldl (cleanStep false) ⟨[], 0⟩ = absState 0 P := by
    rw [← absState_zero, foldl_abs_normal 0 [] P (by simp) hP, List.nil_append]
  have hfoldPB : (P ++ B1).foldl (cleanStep false) ⟨[], 0⟩ = absState 0 (P ++ B1) := by
    rw [← absState_zero, foldl_abs_normal 0 [] (P ++ B1) (by simp) hPB, List.nil_append]
  rw [splitSlash_append_slash, hsplitD, List.foldl_append, hfoldPB, hfoldP]
  by_cases hB : B1 = []
  · subst hB
    rw [if_neg (by simp), List.append_nil]
  · rw [if_pos hB]
    have hups : splitSlash (render B1.length []) = List.replicate B1.length ['.', '.'] := by
      have := splitSlash_joinSlash (List.replicate B1.length ['.', '.'] ++ [])
        (by
          intro h
          have := congrArg List.length h
          simp at this
          exact hB this)
        (fun e he => (render_elems B1.length [] (by simp) e he).2)
      rw [List.append_nil] at this
      unfold render
      rw [List.append_nil]
      exact this
    have hpop := foldl_abs_pop 0 P B1 (fun x hx => (hP x hx).1) hB1
    by_cases htr : tr = []
    · subst htr
      rw [if_neg (by simp), List.append_nil, hups, hpop, foldl_cleanStep_split_nil]
    · rw [if_pos htr, splitSlash_append_slash, hups, List.foldl_append, hpop]

/-- The reference that `filepath.Rel` gives from a directory of kept elements to a
relative target, joined to the directory, is the cleaned target. -/
theorem rel_join (B : List Str) (hB : ∀ e ∈ B, normalElem e) (hne : B ≠ [])
    (hdot : joinSlash B ≠ str ".") (t : Str) (ht : t ≠ []) (hrel : t.head? ≠ some '/') :
    ∃ newRef, filepath.Rel (joinSlash B) t = .ok newRef ∧
      path.Join [joinSlash B, newRef] = path.Clean t := by
  have hrender : joinSlash B = render 0 B := rfl
  have hDne : joinSlash B ≠ [] := fun h => hne (joinSlash_eq_nil B (fun e he => (hB e he).1) h)
  have hDhead : (joinSlash B).head? ≠ some '/' := render_head 0 B hB
  have hDclean : path.Clean (joinSlash B) = joinSlash B :=
    clean_render 0 B hB hDne
  have hsplitD : splitSlash (joinSlash B) = B :=
    splitSlash_joinSlash _ hne (fun e he => (hB e he).2.1)
  have hfoldB : B.foldl (cleanStep false) ⟨[], 0⟩ = absState 0 B := by
    rw [← absState_zero, foldl_abs_normal 0 [] B (by simp) hB, List.nil_append]
  obtain ⟨hchead, hcne⟩ := clean_relative_head t ht hrel
  have hidem := clean_idem_relative t ht hrel
  have hjoinhead : ∀ x, (joinSlash B ++ '/' :: x) ≠ [] ∧
      (joinSlash B ++ '/' :: x).head? ≠ some '/' := by
    intro x
    cases hj : joinSlash B with
    | nil => exact absurd hj hDne
    | cons a as =>
      rw [hj] at hDhead
      exact ⟨by simp, hDhead⟩
  by_cases hcb : path.Clean t = joinSlash B
  · refine ⟨str ".", ?_, ?_⟩
    · unfold filepath.Rel filepath.Clean
      simp only [hDclean, hcb, if_true]
    · rw [join_two _ _ hDne, clean_relative _ (hjoinhead _).1 (hjoinhead _).2,
        splitSlash_append_slash, hsplitD, List.foldl_append, hfoldB, hcb]
      show cleanFinish (cleanStep false (absState 0 B) ['.']) = _
      rw [cleanStep_skip false _ _ (Or.inr rfl), cleanFinish_abs, ← hrender, if_neg hDne]
  · rw [rel_unfold (joinSlash B) t (joinSlash B) (path.Clean t) hDclean rfl hcb hdot hDhead
      hchead]
    obtain ⟨P, B1, hPB, h1, h2, h3⟩ := relLoop_spec B hB (joinSlash B).length (path.Clean t)
      (Nat.le_refl _)
    have hP : ∀ e ∈ P, normalElem e := fun e he => hB e (by rw [hPB]; exact List.mem_append_left _ he)
    have hB1 : ∀ e ∈ B1, normalElem e :=
      fun e he => hB e (by rw [hPB]; exact List.mem_append_right _ he)
    have helem : (filepath.relLoop (joinSlash B).length (joinSlash B) (path.Clean t)).1 ≠
        str ".." := by
      rcases h2 with h2 | h2
      · rw [h2]
        decide
      · exact (hB _ h2).2.2.2
    rw [if_neg helem, h1]
    have hfold := foldl_dir_newRef P B1
      (filepath.relLoop (joinSlash B).length (joinSlash B) (path.Clean t)).2.2 hP hB1
      (by rw [← hPB]; exact hne)
    rw [← hPB, ← h3 ⟨[], 0⟩] at hfold
    have hfinal : ∀ newRef, (splitSlash (joinSlash B ++ '/' :: newRef)).foldl (cleanStep false)
        ⟨[], 0⟩ = (splitSlash (path.Clean t)).foldl (cleanStep false) ⟨[], 0⟩ →
        path.Join [joinSlash B, newRef] = path.Clean t := by
      intro newRef hh
      rw [join_two _ _ hDne, clean_relative _ (hjoinhead _).1 (hjoinhead _).2, hh,
        ← clean_relative _ hcne hchead, hidem]
    by_cases hb1 : B1 = []
    · have hj : joinSlash B1 = [] := by rw [hb1]; rfl
      rw [if_neg (by simp [hj])]
      rw [if_neg (by simp [hb1])] at hfold
      exact ⟨_, rfl, hfinal _ hfold⟩
    · have hj : joinSlash B1 ≠ [] :=
        fun h => hb1 (joinSlash_eq_nil B1 (fun e he => (hB1 e he).1) h)
      rw [if_pos hj]
      rw [if_pos hb1] at hfold
      refine ⟨_, rfl, hfinal _ ?_⟩
      have hcount := count_slash_joinSlash B1 hb1 (fun e he => (hB1 e he).2.1)
      rw [ups_eq_render, hcount]
      exact hfold

/-! ## Joining an element to a path -/

theorem splitSlash_append_no_slash (q y : Str) (hy : '/' ∉ y) :
    ∃ front g, splitSlash (q ++ y) = front ++ [g ++ y] ∧ '/' ∉ g := by
  induction q with
  | nil => exact ⟨[], [], by rw [List.nil_append, splitSlash_no_slash y hy]; rfl, by simp⟩
  | cons c q ih =>
    obtain ⟨front, g, hfg, hg⟩ := ih
    by_cases hc : c = '/'
    · subst hc
      exact ⟨[] :: front, g, by rw [List.cons_append, splitSlash_slash, hfg]; rfl, hg⟩
    · rw [List.cons_append, splitSlash_cons c _ hc, hfg]
      cases front with
      | nil =>
        refine ⟨[], c :: g, rfl, ?_⟩
        intro hm
        rw [List.mem_cons] at hm
        rcases hm with hm | hm
        · exact hc hm.symm
        · exact hg hm
      | cons f fs => exact ⟨(c :: f) :: fs, g, rfl, hg⟩

theorem normal_of_long (e : Str) (hs : '/' ∉ e) (hl : 3 ≤ e.length) : normalElem e := by
  refine ⟨?_, hs, ?_, ?_⟩ <;>
  · intro h
    rw [h] at hl
    simp at hl

/-- After an element of at least three bytes the output of the loop of
`path.Clean` has at least three bytes, and a kept element that follows is appended
with a slash. -/
theorem cleanFinish_append_elem (rooted : Bool) (st : CleanState) (front : List Str)
    (l e : Str) (hl : '/' ∉ l) (hlen : 3 ≤ l.length) (he : normalElem e) :
    cleanFinish ((front ++ [l] ++ [e]).foldl (cleanStep rooted) st) =
      cleanFinish ((front ++ [l]).foldl (cleanStep rooted) st) ++ '/' :: e := by
  rw [List.foldl_append, List.foldl_append]
  generalize front.foldl (cleanStep rooted) st = s0
  simp only [List.foldl_cons, List.foldl_nil]
  rw [cleanStep_normal rooted s0 l (normal_of_long l hl hlen)]
  generalize hout : (if (rooted && s0.out.length != 1) || (!rooted && s0.out.length != 0) then
    '/' :: s0.out else s0.out) = o
  rw [cleanStep_normal rooted _ e he]
  have hlen2 : (l.reverse ++ o).length ≥ 3 := by
    rw [List.length_append, List.length_reverse]
    omega
  have h1 : ((l.reverse ++ o).length != 1) = true := by
    simp only [bne_iff_ne, ne_eq]
    omega
  have h0 : ((l.reverse ++ o).length != 0) = true := by
    simp only [bne_iff_ne, ne_eq]
    omega
  have hcond : ((rooted && (l.reverse ++ o).length != 1) ||
      (!rooted && (l.reverse ++ o).length != 0)) = true := by
    rw [h1, h0]
    cases rooted <;> rfl
  simp only [hcond, if_true]
  unfold cleanFinish
  rw [if_neg (by simp), if_neg (by simp only []; omega)]
  simp

theorem clean_append_elem (x y e : Str) (hy : '/' ∉ y) (hlen : 3 ≤ y.length)
    (he : normalElem e) :
    path.Clean (x ++ y ++ '/' :: e) = path.Clean (x ++ y) ++ '/' :: e := by
  have hsplit_e : splitSlash e = [e] := splitSlash_no_slash e he.2.1
  cases x with
  | nil =>
    rw [List.nil_append]
    cases y with
    | nil => simp at hlen
    | cons c y =>
      have hc : c ≠ '/' := fun hh => hy (hh ▸ List.mem_cons_self _ _)
      have hrel : ∀ r, ((c :: y) ++ r).head? ≠ some '/' := by
        intro r
        rw [List.cons_append, List.head?_cons]
        intro hh
        exact hc (Option.some.inj hh)
      have hrel2 := hrel []
      rw [List.append_nil] at hrel2
      rw [clean_relative _ (by simp) (hrel _), clean_relative _ (by simp) hrel2,
        splitSlash_append_slash, hsplit_e, splitSlash_no_slash _ hy]
      exact cleanFinish_append_elem false _ [] (c :: y) e hy hlen he
  | cons a x =>
    obtain ⟨front, g, hfg, hg⟩ := splitSlash_append_no_slash x y hy
    have hgy : '/' ∉ g ++ y := by
      intro hm
      rw [List.mem_append] at hm
      rcases hm with hm | hm
      · exact hg hm
      · exact hy hm
    have hgylen : 3 ≤ (g ++ y).length := by
      rw [List.length_append]
      omega
    by_cases ha : a = '/'
    · subst ha
      rw [List.cons_append, List.cons_append, clean_rooted, clean_rooted,
        splitSlash_append_slash, hsplit_e, hfg]
      exact cleanFinish_append_elem true _ front (g ++ y) e hgy hgylen he
    · obtain ⟨front2, g2, hfg2, hg2⟩ := splitSlash_append_no_slash (a :: x) y hy
      have hgy2 : '/' ∉ g2 ++ y := by
        intro hm
        rw [List.mem_append] at hm
        rcases hm with hm | hm
        · exact hg2 hm
        · exact hy hm
      have hgylen2 : 3 ≤ (g2 ++ y).length := by
        rw [List.length_append]
        omega
      have hrel : ∀ r, ((a :: x) ++ r).head? ≠ some '/' := by
        intro r
        rw [List.cons_append, List.head?_cons]
        intro hh
        exact ha (Option.some.inj hh)
      have h1 := hrel (y ++ '/' :: e)
      have h2 := hrel y
      rw [← List.append_assoc] at h1
      rw [clean_relative _ (by simp) h1, clean_relative _ (by simp) h2,
        splitSlash_append_slash, hsplit_e, hfg2]
      exact cleanFinish_append_elem false _ front2 (g2 ++ y) e hgy2 hgylen2 he

theorem filepath_join_two (d x : Str) (hd : d ≠ []) :
    filepath.Join [d, x] = path.Clean (d ++ '/' :: x) := by
  rw [filepath.Join, if_pos hd]
  unfold filepath.Clean
  congr 1
  simp [List.intercalate, List.intersperse, str]

theorem docsetDirOf_eq (output name : Str) :
    docsetDirOf output name =
      (if output ≠ [] ∧ ¬ str "/" <:+ output then output ++ str "/" else output) ++ name ++
        str ".docset" := by
  unfold docsetDirOf
  by_cases h : strings.HasSuffix output (str "/") = true
  · have h2 := (hasSuffix_iff _ _).mp h
    simp [h, h2]
  · have h2 : ¬ str "/" <:+ output := fun hh => h ((hasSuffix_iff _ _).mpr hh)
    simp [h, h2]

theorem normal_icon : normalElem (str "icon.png") := by decide

/-- The icon file is the file `icon.png` in the cleaned docset directory. -/
theorem writeIconPath_eq (output name : Str) :
    writeIconPath (docsetDirOf output name) =
      path.Clean (docsetDirOf output name) ++ str "/icon.png" := by
  unfold writeIconPath
  have hd : docsetDirOf output name ≠ [] := by
    unfold docsetDirOf
    simp [str]
  rw [filepath_join_two _ _ hd]
  unfold docsetDirOf
  exact clean_append_elem _ (str ".docset") (str "icon.png") (by decide) (by decide) normal_icon

/-! ## Facts about the link rewriter -/

theorem trimLeft_slash (href : Str) (h : ∃ c ∈ href, c ≠ '/') :
    strings.TrimLeft href '/' ≠ [] ∧ (strings.TrimLeft href '/').head? ≠ some '/' := by
  unfold strings.TrimLeft
  induction href with
  | nil =>
    obtain ⟨c, hc, _⟩ := h
    simp at hc
  | cons a href ih =>
    by_cases ha : a = '/'
    · subst ha
      rw [List.dropWhile_cons, if_pos (by simp)]
      apply ih
      obtain ⟨c, hc, hne⟩ := h
      rw [List.mem_cons] at hc
      rcases hc with rfl | hc
      · exact absurd rfl hne
      · exact ⟨c, hc, hne⟩
    · rw [List.dropWhile_cons, if_neg (by simpa using ha)]
      refine ⟨by simp, ?_⟩
      rw [List.head?_cons]
      intro hh
      exact ha (Option.some.inj hh)

theorem joinSlash_pkg_ne_dot (N : List Str) : joinSlash (str "pkg" :: N) ≠ str "." := by
  obtain ⟨r, hr⟩ := joinSlash_cons_eq (str "pkg") N
  rw [hr]
  intro h
  have h1 : (str "pkg" ++ r).head? = some 'p' := rfl
  have h2 : (str ".").head? = some '.' := rfl
  rw [h, h2] at h1
  exact absurd h1 (by decide)

/-- One rewritten reference: `filepath.Rel` gives a reference without error, the
closure of `replaceLinks` sets it, and joined to the directory of the document it
is the cleaned path of the old reference without its leading slashes. -/
theorem replaceLink_ok (packageName href suffix : Str)
    (hdd : str ".." ∉ splitSlash packageName) (hsuf : suffix <:+ href)
    (hchar : ∃ c ∈ suffix, c ≠ '/') :
    ∃ newRef,
      filepath.Rel (path.Dir (getDocumentPath packageName)) (strings.TrimLeft href '/') =
        .ok newRef ∧
      replaceLink (path.Dir (getDocumentPath packageName)) suffix (some href) =
        (some newRef, []) ∧
      path.Join [path.Dir (getDocumentPath packageName), newRef] =
        path.Clean (strings.TrimLeft href '/') := by
  have hraw : ∃ c ∈ href, c ≠ '/' := by
    obtain ⟨c, hc, hne⟩ := hchar
    obtain ⟨pre, rfl⟩ := hsuf
    exact ⟨c, List.mem_append_right _ hc, hne⟩
  obtain ⟨ht, hrel⟩ := trimLeft_slash href hraw
  have hN := filter_normal (splitSlash packageName)
  have hB : ∀ e ∈ str "pkg" :: (splitSlash packageName).filter (fun e => decide (normalElem e)),
      normalElem e := by
    intro e he
    rw [List.mem_cons] at he
    rcases he with rfl | he
    · exact normal_pkg
    · exact hN e he
  obtain ⟨newRef, h1, h2⟩ := rel_join _ hB (by simp) (joinSlash_pkg_ne_dot _)
    (strings.TrimLeft href '/') ht hrel
  rw [documentDir_eq packageName hdd]
  refine ⟨newRef, h1, ?_, h2⟩
  unfold replaceLink
  simp only [(hasSuffix_iff _ _).mpr hsuf, Bool.not_true, Bool.false_eq_true, if_false, h1]

theorem replaceLinks_links (doc : Document) (documentPath : Str) :
    (replaceLinks doc documentPath).1.links =
      doc.links.map (fun a => (replaceLink (path.Dir documentPath) (str ".css") a).1) := by
  unfold replaceLinks
  simp only [List.map_map]
  rfl

theorem replaceLinks_scripts (doc : Document) (documentPath : Str) :
    (replaceLinks doc documentPath).1.scripts =
      doc.scripts.map (fun a => (replaceLink (path.Dir documentPath) (str ".js") a).1) := by
  unfold replaceLinks
  simp only [List.map_map]
  rfl

/-! ## The embedding of the standard library on the tables of its tests -/

/-- The embedding of `path.Clean` on rows of the table `cleantests` of package `path`. -/
theorem clean_table :
    path.Clean (str "abc") = str "abc" ∧
    path.Clean (str "abc/def") = str "abc/def" ∧
    path.Clean (str ".") = str "." ∧
    path.Clean (str "..") = str ".." ∧
    path.Clean (str "../../abc") = str "../../abc" ∧
    path.Clean (str "/abc") = str "/abc" ∧
    path.Clean (str "/") = str "/" ∧
    path.Clean (str "") = str "." ∧
    path.Clean (str "abc/") = str "abc" ∧
    path.Clean (str "a/b/c/") = str "a/b/c" ∧
    path.Clean (str "../../") = str "../.." ∧
    path.Clean (str "abc//def//ghi") = str "abc/def/ghi" ∧
    path.Clean (str "///abc") = str "/abc" ∧
    path.Clean (str "//abc//") = str "/abc" ∧
    path.Clean (str "abc/./def") = str "abc/def" ∧
    path.Clean (str "/./abc/def") = str "/abc/def" ∧
    path.Clean (str "abc/def/ghi/../jkl") = str "abc/def/jkl" ∧
    path.Clean (str "abc/def/../ghi/../jkl") = str "abc/jkl" ∧
    path.Clean (str "abc/def/../..") = str "." ∧
    path.Clean (str "/abc/def/../..") = str "/" ∧
    path.Clean (str "abc/def/../../..") = str ".." ∧
    path.Clean (str "/abc/def/../../..") = str "/" ∧
    path.Clean (str "abc/def/../../../ghi/jkl/../../../mno") = str "../../mno" ∧
    path.Clean (str "abc/./../def") = str "def" ∧
    path.Clean (str "abc//./../def") = str "def" ∧
    path.Clean (str "abc/../../././../def") = str "../../def" := by
  repeat' apply And.intro
  all_goals decide

/-- The embedding of `filepath.Rel` on rows of the table `reltests` of package
`path/filepath`. -/
theorem rel_table :
    filepath.Rel (str "a/b") (str "a/b") = .ok (str ".") ∧
    filepath.Rel (str "a/b/.") (str "a/b") = .ok (str ".") ∧
    filepath.Rel (str "./a/b") (str "a/b") = .ok (str ".") ∧
    filepath.Rel (str "ab/cd") (str "ab/cde") = .ok (str "../cde") ∧
    filepath.Rel (str "ab/cd") (str "ab/c") = .ok (str "../c") ∧
    filepath.Rel (str "a/b") (str "a/b/c/d") = .ok (str "c/d") ∧
    filepath.Rel (str "a/b") (str "a/b/../c") = .ok (str "../c") ∧
    filepath.Rel (str "a/b/../c") (str "a/b") = .ok (str "../b") ∧
    filepath.Rel (str "a/b/c") (str "a/c/d") = .ok (str "../../c/d") ∧
    filepath.Rel (str "a/b") (str "c/d") = .ok (str "../../c/d") ∧
    filepath.Rel (str "a/b/c/d") (str "a/b") = .ok (str "../..") ∧
    filepath.Rel (str "a/b/c/d/") (str "a/b/") = .ok (str "../..") ∧
    filepath.Rel (str "../../a/b") (str "../../a/b/c/d") = .ok (str "c/d") ∧
    filepath.Rel (str "/a/b") (str "/a/b") = .ok (str ".") ∧
    filepath.Rel (str "/ab/cd") (str "/ab/cde") = .ok (str "../cde") ∧
    filepath.Rel (str "/a/b") (str "/c/d") = .ok (str "../../c/d") ∧
    filepath.Rel (str "/a/b/c/d/") (str "/a/b/") = .ok (str "../..") ∧
    filepath.Rel (str "/../../a/b") (str "/../../a/b/c/d") = .ok (str "c/d") ∧
    filepath.Rel (str ".") (str "a/b") = .ok (str "a/b") ∧
    filepath.Rel (str ".") (str "..") = .ok (str "..") ∧
    filepath.Rel (str "..") (str ".") =
      .error (str "Rel: can't make . relative to ..") ∧
    filepath.Rel (str "..") (str "a") =
      .error (str "Rel: can't make a relative to ..") ∧
    filepath.Rel (str "a") (str "/a") =
      .error (str "Rel: can't make /a relative to a") ∧
    filepath.Rel (str "/a") (str "a") =
      .error (str "Rel: can't make a relative to /a") := by
  repeat' apply And.intro
  all_goals decide

/-- The embeddings of `Join` and `Dir` on rows of the tables `jointests` and
`dirtests` of package `path`. -/
theorem join_dir_table :
    path.Join [str "a", str "b"] = str "a/b" ∧
    path.Join [str "a", str ""] = str "a" ∧
    path.Join [str "", str "b"] = str "b" ∧
    path.Join [str "/", str "a"] = str "/a" ∧
    path.Join [str "/", str ""] = str "/" ∧
    path.Join [str "a/", str "b"] = str "a/b" ∧
    path.Join [str "a/", str ""] = str "a" ∧
    path.Join [str "", str ""] = str "" ∧
    path.Join [] = str "" ∧
    path.Join [str "a", str "b", str "c"] = str "a/b/c" ∧
    filepath.Join [str "a", str "b"] = str "a/b" ∧
    filepath.Join [str "a", str ""] = str "a" ∧
    filepath.Join [str "", str "b"] = str "b" ∧
    filepath.Join [str "/", str "a"] = str "/a" ∧
    filepath.Join [str "/", str ""] = str "/" ∧
    filepath.Join [str "a/", str "b"] = str "a/b" ∧
    filepath.Join [str "a/", str ""] = str "a" ∧
    filepath.Join [str "", str ""] = str "" ∧
    filepath.Join [] = str "" ∧
    filepath.Join [str "a", str "b", str "c"] = str "a/b/c" ∧
    path.Dir (str "") = str "." ∧
    path.Dir (str "abc") = str "." ∧
    path.Dir (str "abc/def") = str "abc" ∧
    path.Dir (str "a/b/.x") = str "a/b" ∧
    path.Dir (str "a/b/c.") = str "a/b" ∧
    path.Dir (str "a/b/c.x") = str "a/b" ∧
    path.Dir (str "/") = str "/" ∧
    path.Dir (str "/foo") = str "/" ∧
    path.Dir (str "x/") = str "x" ∧
    path.Dir (str "abc////def") = str "abc" ∧
    path.Dir (str "abc/def/") = str "abc/def" := by
  repeat' apply And.intro
  all_goals decide

/-! ## Facts about the events of a unit -/

theorem attempts_append (xs ys : List Event) : attempts (xs ++ ys) = attempts xs + attempts ys := by
  unfold attempts
  exact List.countP_append _ _ _

theorem attempts_get_cons (u : Str) (xs : List Event) :
    attempts (.httpGet u :: xs) = attempts xs + 1 := by
  unfold attempts
  rw [List.countP_cons_of_pos]
  rfl

theorem attempts_eq_zero (xs : List Event) (h : ∀ ev ∈ xs, ∀ u, ev ≠ .httpGet u) :
    attempts xs = 0 := by
  unfold attempts
  rw [List.countP_eq_zero]
  intro ev hev
  cases ev with
  | httpGet u => exact absurd rfl (h _ hev u)
  | _ => simp

theorem written_no_done (doc : Document) (fs : FileSystem)
    (docsetDir documentPath content : Str) (ev : Event)
    (h : ev ∈ (replaceLinks doc documentPath).2 ++ (writeFile fs docsetDir documentPath content).2) :
    ev ≠ .done := by
  rw [List.mem_append] at h
  rcases h with h | h
  · obtain ⟨e, rfl⟩ := replaceLinks_events _ _ _ h
    simp
  · rcases createAndCopy_events _ _ _ _ h with rfl | rfl | rfl <;> simp

/-- An attempt begins with its `http.Get`; nothing after it is an `http.Get` or a
`wg.Done()`. -/
theorem tryGrabPackage_shape (w : Attempt) (docsetDir packageName url : Str) :
    ∃ rest, (tryGrabPackage w docsetDir packageName url).2 = .httpGet url :: rest ∧
      attempts rest = 0 ∧ Event.done ∉ rest := by
  have hmid : ∀ (doc : Document) (content : Str),
      attempts ((replaceLinks doc (getDocumentPath packageName)).2 ++
        (writeFile w.fs docsetDir (getDocumentPath packageName) content).2) = 0 ∧
      Event.done ∉ (replaceLinks doc (getDocumentPath packageName)).2 ++
        (writeFile w.fs docsetDir (getDocumentPath packageName) content).2 := by
    intro doc content
    exact ⟨attempts_eq_zero _ (fun ev hev => (written_no_get_no_sleep _ _ _ _ _ ev hev).1),
      fun hd => written_no_done _ _ _ _ _ _ hd rfl⟩
  have hrep : ∀ (doc : Document),
      attempts (replaceLinks doc (getDocumentPath packageName)).2 = 0 ∧
      Event.done ∉ (replaceLinks doc (getDocumentPath packageName)).2 := by
    intro doc
    constructor
    · apply attempts_eq_zero
      intro ev hev u
      obtain ⟨e, rfl⟩ := replaceLinks_events _ _ _ hev
      simp
    · intro hd
      obtain ⟨e, he⟩ := replaceLinks_events _ _ _ hd
      simp at he
  unfold tryGrabPackage
  split
  · exact ⟨[], rfl, rfl, by simp⟩
  · split
    · exact ⟨[], rfl, rfl, by simp⟩
    · split
      · exact ⟨[], rfl, rfl, by simp⟩
      · rename_i doc _
        simp only []
        split
        · exact ⟨[], rfl, rfl, by simp⟩
        · split
          · exact ⟨_, rfl, (hrep doc).1, (hrep doc).2⟩
          · rename_i newHTML _
            split
            · refine ⟨_, ?_, (hmid doc newHTML).1, (hmid doc newHTML).2⟩
              rw [List.cons_append]
            · refine ⟨(replaceLinks doc (getDocumentPath packageName)).2 ++
                (writeFile w.fs docsetDir (getDocumentPath packageName) newHTML).2 ++
                [.writeInsert packageName], ?_, ?_, ?_⟩
              · simp only [List.cons_append]
              · rw [attempts_append, (hmid doc newHTML).1]
                rfl
              · intro hd
                rw [List.mem_append] at hd
                rcases hd with hd | hd
                · exact (hmid doc newHTML).2 hd
                · simp at hd

theorem grabPackageLoop_shape (w : Nat → Attempt) (docsetDir packageName url : Str)
    (n i : Nat) (info : Option PackageInfo) :
    Event.done ∉ (grabPackageLoop w docsetDir packageName url n i info).2 ∧
      attempts (grabPackageLoop w docsetDir packageName url n i info).2 ≤ n ∧
      (1 ≤ n → 1 ≤ attempts (grabPackageLoop w docsetDir packageName url n i info).2) := by
  induction n generalizing i info with
  | zero =>
    rw [grabPackageLoop]
    exact ⟨by simp, Nat.le_refl _, fun h => absurd h (by decide)⟩
  | succ n ih =>
    obtain ⟨rest, hrest, hatt, hdone⟩ := tryGrabPackage_shape (w i) docsetDir packageName url
    rw [grabPackageLoop]
    simp only []
    split
    · obtain ⟨h1, h2, _⟩ := ih (i + 1)
        (some (tryGrabPackage (w i) docsetDir packageName url).1)
      simp only []
      rw [hrest]
      refine ⟨?_, ?_, fun _ => ?_⟩
      · intro hd
        rw [List.mem_append, List.mem_append, List.mem_cons, List.mem_singleton] at hd
        rcases hd with ((hd | hd) | hd) | hd
        · exact absurd hd (by simp)
        · exact hdone hd
        · exact absurd hd (by simp)
        · exact h1 hd
      · rw [List.append_assoc, List.cons_append, attempts_get_cons, attempts_append, hatt,
          attempts_append]
        have : attempts [Event.sleep 2] = 0 := rfl
        omega
      · rw [List.append_assoc, List.cons_append, attempts_get_cons]
        omega
    · simp only []
      rw [hrest, attempts_get_cons, hatt]
      refine ⟨?_, by omega, fun _ => by omega⟩
      intro hd
      rw [List.mem_cons] at hd
      rcases hd with hd | hd
      · exact absurd hd (by simp)
      · exact hdone hd

/-- The events of `grabPackage`: between one and five attempts, and one `wg.Done()`,
which is its last event. -/
theorem grabPackage_shape (w : Nat → Attempt) (docsetDir packageName url : Str) :
    (∃ body, (grabPackage w docsetDir packageName url).2 = body ++ [.done] ∧
      Event.done ∉ body) ∧
    1 ≤ attempts (grabPackage w docsetDir packageName url).2 ∧
    attempts (grabPackage w docsetDir packageName url).2 ≤ 5 := by
  obtain ⟨h1, h2, h3⟩ := grabPackageLoop_shape w docsetDir packageName url 5 0 none
  unfold grabPackage
  simp only []
  refine ⟨⟨(grabPackageLoop w docsetDir packageName url 5 0 none).2 ++
    [.print (grabPackageLoop w docsetDir packageName url 5 0 none).1], by simp, ?_⟩, ?_, ?_⟩
  · intro hd
    rw [List.mem_append] at hd
    rcases hd with hd | hd
    · exact h1 hd
    · simp at hd
  · rw [attempts_append]
    have := h3 (by decide)
    omega
  · rw [attempts_append]
    have : attempts [Event.print (grabPackageLoop w docsetDir packageName url 5 0 none).1,
      Event.done] = 0 := rfl
    omega

/-! ## Facts about the interleaved crawl -/

theorem done_is_last (did todo body : List Event) (e : Event)
    (h : did ++ e :: todo = body ++ [.done]) (hb : Event.done ∉ body) :
    e = .done ↔ todo = [] := by
  constructor
  · intro he
    rcases List.eq_nil_or_concat todo with ht | ⟨t, x, ht⟩
    · exact ht
    · exfalso
      rw [ht, List.concat_eq_append, ← List.cons_append, ← List.append_assoc] at h
      have h1 := (List.append_inj' h rfl).1
      apply hb
      rw [← h1, he]
      simp
  · intro ht
    rw [ht, ← List.concat_eq_append, List.concat_eq_append] at h
    have h1 := (List.append_inj' h rfl).2
    exact List.singleton_inj.mp h1

theorem pending_cons (u : Running) (us : List Running) :
    pending (u :: us) = pending us + if u.todo ≠ [] then 1 else 0 := by
  unfold pending
  rw [List.countP_cons]
  simp only [decide_eq_true_eq]

theorem remaining_cons (u : Running) (us : List Running) :
    remaining (u :: us) = u.todo.length + remaining us := by
  unfold remaining
  rw [List.map_cons, List.sum_cons]

theorem pending_append_singleton (us : List Running) (u : Running) :
    pending (us ++ [u]) = pending us + if u.todo ≠ [] then 1 else 0 := by
  unfold pending
  rw [List.countP_append, List.countP_cons]
  simp only [List.countP_nil, Nat.zero_add, decide_eq_true_eq]

theorem remaining_append_singleton (us : List Running) (u : Running) :
    remaining (us ++ [u]) = remaining us + u.todo.length := by
  unfold remaining
  rw [List.map_append, List.sum_append]
  simp

theorem unitsOk_append_singleton (w : Nat → Nat → Attempt) (docsetDir : Str) (k : Nat)
    (us : List Running) (u : Running) (hus : unitsOk w docsetDir k us)
    (hu : u.did ++ u.todo = (grabPackage (w (k + us.length)) docsetDir u.name u.url).2) :
    unitsOk w docsetDir k (us ++ [u]) := by
  induction us generalizing k with
  | nil => exact ⟨hu, trivial⟩
  | cons v vs ih =>
    refine ⟨hus.1, ih (k + 1) hus.2 ?_⟩
    rw [List.length_cons] at hu
    rw [Nat.add_assoc, Nat.add_comm 1]
    exact hu

/-- A step of a goroutine keeps it in the events of `grabPackage`; the goroutine is
done exactly when the event is its `wg.Done()`. -/
theorem stepUnit_spec (w : Nat → Nat → Attempt) (docsetDir : Str) (us : List Running)
    (k off : Nat) (r : List Running × Event) (h : stepUnit us k = some r)
    (hus : unitsOk w docsetDir off us) :
    unitsOk w docsetDir off r.1 ∧
      r.1.map (fun u => (u.name, u.url)) = us.map (fun u => (u.name, u.url)) ∧
      (r.2 = .done → pending r.1 + 1 = pending us) ∧
      (r.2 ≠ .done → pending r.1 = pending us) ∧
      remaining r.1 + 1 = remaining us := by
  induction us generalizing k off r with
  | nil => simp [stepUnit] at h
  | cons u us ih =>
    cases k with
    | zero =>
      rw [stepUnit] at h
      cases htodo : u.todo with
      | nil => simp [htodo] at h
      | cons e todo =>
        rw [htodo] at h
        simp only [Option.some.injEq] at h
        subst h
        obtain ⟨hu, hrest⟩ := hus
        rw [htodo] at hu
        obtain ⟨⟨body, hbody, hnd⟩, _⟩ := grabPackage_shape (w off) docsetDir u.name u.url
        have hlast := done_is_last u.did todo body e (hu.trans hbody) hnd
        refine ⟨⟨?_, hrest⟩, rfl, ?_, ?_, ?_⟩
        · simp only [List.append_assoc, List.singleton_append]
          exact hu
        · intro he
          have ht : todo = [] := hlast.mp he
          rw [pending_cons, pending_cons, htodo]
          simp [ht]
        · intro he
          have ht : todo ≠ [] := fun hh => he (hlast.mpr hh)
          rw [pending_cons, pending_cons, htodo]
          simp [ht]
        · rw [remaining_cons, remaining_cons, htodo, List.length_cons]
          simp only []
          omega
    | succ k =>
      rw [stepUnit] at h
      cases hstep : stepUnit us k with
      | none => simp [hstep] at h
      | some r0 =>
        rw [hstep] at h
        simp only [Option.some.injEq] at h
        subst h
        obtain ⟨h1, h2, h3, h4, h5⟩ := ih k (off + 1) r0 hstep hus.2
        refine ⟨⟨hus.1, h1⟩, ?_, ?_, ?_, ?_⟩
        · simp only [List.map_cons, h2]
        · intro he
          rw [pending_cons, pending_cons, ← h3 he]
          omega
        · intro he
          rw [pending_cons, pending_cons, h4 he]
        · rw [remaining_cons, remaining_cons, ← h5]
          omega

theorem exists_stepUnit (us : List Running) (h : ∃ u ∈ us, u.todo ≠ []) :
    ∃ k r, stepUnit us k = some r := by
  induction us with
  | nil =>
    obtain ⟨u, hu, _⟩ := h
    simp at hu
  | cons v vs ih =>
    by_cases hv : v.todo = []
    · obtain ⟨u, hu, hne⟩ := h
      rw [List.mem_cons] at hu
      rcases hu with rfl | hu
      · exact absurd hv hne
      · obtain ⟨k, r, hr⟩ := ih ⟨u, hu, hne⟩
        exact ⟨k + 1, (v :: r.1, r.2), by rw [stepUnit, hr]⟩
    · cases htodo : v.todo with
      | nil => exact absurd htodo hv
      | cons e todo => exact ⟨0, _, by rw [stepUnit, htodo]⟩

theorem exists_todo_of_pending (us : List Running) (h : 0 < pending us) :
    ∃ u ∈ us, u.todo ≠ [] := by
  unfold pending at h
  obtain ⟨u, hu, hp⟩ := List.countP_pos_iff.mp h
  exact ⟨u, hu, of_decide_eq_true hp⟩

theorem exists_todo_of_remaining (us : List Running) (h : 0 < remaining us) :
    ∃ u ∈ us, u.todo ≠ [] := by
  induction us with
  | nil => simp [remaining] at h
  | cons v vs ih =>
    by_cases hv : v.todo = []
    · rw [remaining_cons, hv, List.length_nil, Nat.zero_add] at h
      obtain ⟨u, hu, hne⟩ := ih h
      exact ⟨u, List.mem_cons_of_mem _ hu, hne⟩
    · exact ⟨v, List.mem_cons_self _ _, hv⟩

theorem all_done_of_pending (us : List Running) (h : pending us = 0) :
    ∀ u ∈ us, u.todo = [] := by
  intro u hu
  by_contra hne
  have hpos : 0 < pending us := by
    unfold pending
    exact List.countP_pos_iff.mpr ⟨u, hu, decide_eq_true hne⟩
  omega

theorem outstanding_snoc_launch (pre : List Event) (name url : Str) :
    outstanding (pre ++ [.goGrabPackage name url]) = outstanding pre + 1 := by
  unfold outstanding
  rw [List.foldl_append]
  rfl

theorem outstanding_snoc_wait (pre : List Event) : outstanding (pre ++ [.wait]) = 0 := by
  unfold outstanding
  rw [List.foldl_append]
  rfl

theorem grabPackagesLoop_events (host : Str) (packages : List Str) (total : Nat) (e : Event)
    (h : e ∈ grabPackagesLoop host packages total) :
    (∃ name url, e = .goGrabPackage name url) ∨ e = .wait := by
  induction packages generalizing total with
  | nil => simp [grabPackagesLoop] at h
  | cons q packages ih =>
    rw [grabPackagesLoop, List.mem_cons] at h
    rcases h with h | h
    · exact Or.inl ⟨_, _, h⟩
    · split at h
      · rw [List.mem_cons] at h
        rcases h with h | h
        · exact Or.inr h
        · exact ih 0 h
      · exact ih (total + 1) h

theorem grabPackages_events (host : Str) (packages : List Str) (e : Event)
    (h : e ∈ grabPackages host packages) :
    (∃ name url, e = .goGrabPackage name url) ∨ e = .wait := by
  rw [grabPackages, List.mem_append] at h
  rcases h with h | h
  · exact grabPackagesLoop_events host packages 0 e h
  · exact Or.inr (List.mem_singleton.mp h)

theorem schedCost_wait (w : Nat → Nat → Attempt) (docsetDir : Str) (k : Nat)
    (sched : List Event) :
    schedCost w docsetDir k (.wait :: sched) = 1 + schedCost w docsetDir k sched := by
  simp [schedCost]

theorem schedCost_launch (w : Nat → Nat → Attempt) (docsetDir : Str) (k : Nat)
    (name url : Str) (sched : List Event) :
    schedCost w docsetDir k (.goGrabPackage name url :: sched) =
      1 + (grabPackage (w k) docsetDir name url).2.length +
        schedCost w docsetDir (k + 1) sched := by
  simp [schedCost]

theorem crawlStart_inv (w : Nat → Nat → Attempt) (docsetDir host : Str) (packages : List Str) :
    CrawlInv w docsetDir host packages (crawlStart host packages) :=
  ⟨[], rfl, rfl, trivial, rfl, Nat.le_refl _⟩

/-- Every step of a crawl keeps what holds in every state, and is one step less
to take. -/
theorem step_inv (w : Nat → Nat → Attempt) (docsetDir host : Str) (packages : List Str)
    (st st1 : Crawl) (t : Turn) (hinv : CrawlInv w docsetDir host packages st)
    (h : step w docsetDir st t = some st1) :
    CrawlInv w docsetDir host packages st1 ∧
      potential w docsetDir st1 + 1 = potential w docsetDir st := by
  obtain ⟨pre, hpre, hl, hok, hc, hout⟩ := hinv
  cases t with
  | scheduler =>
    cases hs : st.sched with
    | nil => simp [step, hs] at h
    | cons e rest =>
      cases e with
      | goGrabPackage name url =>
        simp only [step, hs, Option.some.injEq] at h
        subst h
        obtain ⟨⟨body, hbody, _⟩, _⟩ :=
          grabPackage_shape (w st.units.length) docsetDir name url
        have hne : (grabPackage (w st.units.length) docsetDir name url).2 ≠ [] := by
          rw [hbody]
          simp
        refine ⟨⟨pre ++ [.goGrabPackage name url], ?_, ?_, ?_, ?_, ?_⟩, ?_⟩
        · rw [List.append_assoc, List.singleton_append, ← hs]
          exact hpre
        · rw [launched_append, hl, List.map_append]
          rfl
        · apply unitsOk_append_singleton w docsetDir 0 st.units _ hok
          rw [Nat.zero_add]
          rfl
        · simp only []
          rw [pending_append_singleton, hc]
          simp [hne]
        · simp only []
          rw [outstanding_snoc_launch]
          omega
        · unfold potential
          simp only [List.length_append, List.length_singleton]
          rw [hs, schedCost_launch, remaining_append_singleton]
          simp only []
          omega
      | wait =>
        simp only [step, hs] at h
        by_cases hz : st.counter = 0
        · rw [if_pos hz, Option.some.injEq] at h
          subst h
          refine ⟨⟨pre ++ [.wait], ?_, ?_, hok, hc, ?_⟩, ?_⟩
          · rw [List.append_assoc, List.singleton_append, ← hs]
            exact hpre
          · rw [launched_append, hl]
            simp [launched]
          · simp only []
            rw [hz]
            exact Nat.zero_le _
          · unfold potential
            simp only []
            rw [hs, schedCost_wait]
            omega
        · rw [if_neg hz] at h
          exact absurd h (by simp)
      | _ => simp [step, hs] at h
  | unit k =>
    cases hstep : stepUnit st.units k with
    | none => simp [step, hstep] at h
    | some r =>
      simp only [step, hstep, Option.some.injEq] at h
      subst h
      obtain ⟨h1, h2, h3, h4, h5⟩ := stepUnit_spec w docsetDir st.units k 0 r hstep hok
      have hlen : r.1.length = st.units.length := by
        have := congrArg List.length h2
        simpa using this
      refine ⟨⟨pre, hpre, by rw [hl, h2], h1, ?_, ?_⟩, ?_⟩
      · simp only []
        by_cases hd : r.2 = .done
        · rw [if_pos hd]
          have := h3 hd
          omega
        · rw [if_neg hd]
          have := h4 hd
          omega
      · simp only []
        split <;> omega
      · unfold potential
        simp only []
        rw [hlen]
        omega

theorem exec_inv (w : Nat → Nat → Attempt) (docsetDir host : Str) (packages : List Str)
    (turns : List Turn) (st st1 : Crawl) (hinv : CrawlInv w docsetDir host packages st)
    (h : exec w docsetDir st turns = some st1) : CrawlInv w docsetDir host packages st1 := by
  induction turns generalizing st with
  | nil =>
    rw [exec, Option.some.injEq] at h
    exact h ▸ hinv
  | cons t turns ih =>
    rw [exec] at h
    cases hstep : step w docsetDir st t with
    | none => simp [hstep] at h
    | some st2 =>
      rw [hstep] at h
      exact ih st2 (step_inv w docsetDir host packages st st2 t hinv hstep).1 h

theorem schedCost_eq_zero (w : Nat → Nat → Attempt) (docsetDir : Str) (k : Nat)
    (sched : List Event) (h : schedCost w docsetDir k sched = 0) : sched = [] := by
  cases sched with
  | nil => rfl
  | cons e rest =>
    cases e <;> simp [schedCost] at h

/-- A crawl that has steps to take can take one: it does not block. -/
theorem step_exists (w : Nat → Nat → Attempt) (docsetDir host : Str) (packages : List Str)
    (st : Crawl) (hinv : CrawlInv w docsetDir host packages st)
    (hpos : 0 < potential w docsetDir st) : ∃ t st1, step w docsetDir st t = some st1 := by
  obtain ⟨pre, hpre, hl, hok, hc, hout⟩ := hinv
  have hunit : (∃ u ∈ st.units, u.todo ≠ []) → ∃ t st1, step w docsetDir st t = some st1 := by
    intro hex
    obtain ⟨k, r, hr⟩ := exists_stepUnit st.units hex
    exact ⟨.unit k, _, by simp only [step, hr]; rfl⟩
  cases hs : st.sched with
  | nil =>
    apply hunit
    apply exists_todo_of_remaining
    unfold potential at hpos
    rw [hs, schedCost] at hpos
    omega
  | cons e rest =>
    have hmem : e ∈ grabPackages host packages := by
      rw [← hpre, hs]
      simp
    rcases grabPackages_events host packages e hmem with ⟨name, url, rfl⟩ | rfl
    · exact ⟨.scheduler, _, by simp only [step, hs]; rfl⟩
    · by_cases hz : st.counter = 0
      · exact ⟨.scheduler, _, by simp only [step, hs, hz, if_true]; rfl⟩
      · apply hunit
        apply exists_todo_of_pending
        omega

/-- From every state of a crawl there are turns after which `grabPackages` has
returned and every goroutine has done all its events. -/
theorem exec_returns (w : Nat → Nat → Attempt) (docsetDir host : Str) (packages : List Str)
    (n : Nat) (st : Crawl) (hinv : CrawlInv w docsetDir host packages st)
    (hn : potential w docsetDir st = n) :
    ∃ turns st1, exec w docsetDir st turns = some st1 ∧ st1.sched = [] ∧
      remaining st1.units = 0 := by
  induction n generalizing st with
  | zero =>
    refine ⟨[], st, rfl, ?_, ?_⟩
    · unfold potential at hn
      exact schedCost_eq_zero w docsetDir st.units.length st.sched (by omega)
    · unfold potential at hn
      omega
  | succ n ih =>
    obtain ⟨t, st2, hstep⟩ := step_exists w docsetDir host packages st hinv (by omega)
    obtain ⟨hinv2, hpot⟩ := step_inv w docsetDir host packages st st2 t hinv hstep
    obtain ⟨turns, st1, hexec, h1, h2⟩ := ih st2 hinv2 (by omega)
    exact ⟨t :: turns, st1, by rw [exec, hstep]; exact hexec, h1, h2⟩

theorem unitsOk_getElem (w : Nat → Nat → Attempt) (docsetDir : Str) (off : Nat)
    (us : List Running) (hus : unitsOk w docsetDir off us) (k : Nat) (u : Running)
    (hk : us[k]? = some u) :
    u.did ++ u.todo = (grabPackage (w (off + k)) docsetDir u.name u.url).2 := by
  induction us generalizing off k with
  | nil => simp at hk
  | cons v vs ih =>
    cases k with
    | zero =>
      simp only [List.getElem?_cons_zero, Option.some.injEq] at hk
      subst hk
      exact hus.1
    | succ k =>
      rw [List.getElem?_cons_succ] at hk
      have := ih (off + 1) hus.2 k hk
      rw [Nat.add_assoc, Nat.add_comm 1 k] at this
      exact this

theorem dropWhile_slash_head (l : List Char) :
    (l.dropWhile (fun c => c == '/')).head? ≠ some '/' := by
  induction l with
  | nil => simp
  | cons a l ih =>
    by_cases ha : a = '/'
    · subst ha
      rw [List.dropWhile_cons, if_pos (by simp)]
      exact ih
    · rw [List.dropWhile_cons, if_neg (by simpa using ha), List.head?_cons]
      intro hh
      exact ha (Option.some.inj hh)

/-- The name of a unit: the element of the list without its trailing slashes. -/
theorem trimRight_slash (q : Str) :
    ∃ k, q = strings.TrimRight q '/' ++ List.replicate k '/' ∧
      ¬ ['/'] <:+ strings.TrimRight q '/' := by
  unfold strings.TrimRight
  refine ⟨(q.reverse.takeWhile (fun c => c == '/')).length, ?_, ?_⟩
  · have hall : q.reverse.takeWhile (fun c => c == '/') =
        List.replicate (q.reverse.takeWhile (fun c => c == '/')).length '/' := by
      rw [List.eq_replicate_iff]
      refine ⟨rfl, ?_⟩
      intro x hx
      have := List.mem_takeWhile_imp hx
      simpa using this
    have hsplit := List.takeWhile_append_dropWhile (fun c => c == '/') q.reverse
    have hrev := congrArg List.reverse hsplit
    rw [List.reverse_reverse, List.reverse_append] at hrev
    rw [← List.reverse_replicate, ← hall]
    exact hrev.symm
  · rintro ⟨t, ht⟩
    have hrev := congrArg List.reverse ht
    rw [List.reverse_append, List.reverse_reverse] at hrev
    have hhead := dropWhile_slash_head q.reverse
    rw [← hrev] at hhead
    exact hhead rfl

/-! # The claims -/

/-- C1: `matchFilter keyword filter` returns true exactly when the list of filters is
empty, or some filter of the list is a substring of the keyword, or some filter
that ends in `*` has its wildcard fragment (the filter without a leading
`github.com/` and without the trailing `*`) as a substring of the keyword;
otherwise it returns false. -/
theorem matchFilter_true_iff (keyword : Str) (filter : List Str) :
    (matchFilter keyword filter = true ↔
      filter = [] ∨ (∃ f ∈ filter, f <:+: keyword) ∨
        (∃ f ∈ filter, str "*" <:+ f ∧ wildcardFragment f <:+: keyword)) ∧
    (matchFilter keyword filter = false ↔
      ¬ (filter = [] ∨ (∃ f ∈ filter, f <:+: keyword) ∨
        (∃ f ∈ filter, str "*" <:+ f ∧ wildcardFragment f <:+: keyword))) := by
  refine ⟨matchFilter_iff_aux keyword filter, ?_⟩
  rw [← matchFilter_iff_aux, Bool.not_eq_true]

/-- C2: for every listing and every list of filters, the packages that `getPackages`
returns are the `href`s of the listing that contain a `.` and satisfy
`matchFilter`, in listing order; so with filters configured, a name that fails
every filter is not in the list and `grabPackages` starts no unit for it. -/
theorem getPackages_filtered (links : List (Option Str)) (filter : List Str) (host : Str) :
    ∃ packages, getPackages (.ok links) filter = .ok packages ∧
      packages = links.reduceOption.filter
        (fun name => decide (str "." <:+: name) && matchFilter name filter) ∧
      packages.Sublist links.reduceOption ∧
      ∀ name, filter ≠ [] →
        (∀ f ∈ filter, ¬ f <:+: name ∧ ¬ (str "*" <:+ f ∧ wildcardFragment f <:+: name)) →
        name ∉ packages ∧
          ∀ unit ∈ launched (grabPackages host packages), unit.2 ≠ host ++ str "/pkg/" ++ name := by
  have hfilter : (fun name => strings.Contains name (str ".") && matchFilter name filter) =
      (fun name => decide (str "." <:+: name) && matchFilter name filter) := by
    funext name
    rw [contains_eq_decide]
  refine ⟨_, rfl, ?_, ?_, ?_⟩
  · rw [getPackages_foldl, List.nil_append, hfilter]
  · rw [getPackages_foldl, List.nil_append]
    exact List.filter_sublist _
  · intro name hne hfail
    have hnot : name ∉ List.foldl (getPackagesStep filter) [] links := by
      rw [getPackages_foldl, List.nil_append, List.mem_filter]
      rintro ⟨_, h⟩
      rw [Bool.and_eq_true] at h
      rcases (matchFilter_iff_aux name filter).mp h.2 with h1 | ⟨f, hf, h1⟩ | ⟨f, hf, h1⟩
      · exact hne h1
      · exact (hfail f hf).1 h1
      · exact (hfail f hf).2 h1
    refine ⟨hnot, ?_⟩
    intro unit hunit heq
    rw [launched_grabPackages, List.mem_map] at hunit
    obtain ⟨q, hq, rfl⟩ := hunit
    have : q = name := List.append_cancel_left heq
    exact hnot (this ▸ hq)

/-- C6: for every list of packages, `grabPackages` starts one unit per element, in
list order, with the name the element without trailing `/` and the URL
`host + "/pkg/" + element`; it waits for all units after every 10th start and once
more before it returns.  In every interleaving of `grabPackages` and its units
at most 10 units are outstanding at every point, `grabPackages` does return, and
when it has returned every target has been attempted exactly once: its unit has
run `grabPackage` to the end, with between one and five attempts and its
`wg.Done()`. -/
theorem grabPackages_batches (w : Nat → Nat → Attempt) (docsetDir host : Str)
    (packages : List Str) :
    grabPackages host packages = batchSchedule host packages ∧
    launched (grabPackages host packages) =
      packages.map (fun q => (strings.TrimRight q '/', host ++ str "/pkg/" ++ q)) ∧
    (∀ q, ∃ k, q = strings.TrimRight q '/' ++ List.replicate k '/' ∧
      ¬ ['/'] <:+ strings.TrimRight q '/') ∧
    (∀ pre, pre <+: grabPackages host packages → outstanding pre ≤ 10) ∧
    outstanding (grabPackages host packages) = 0 ∧
    ∀ turns st, exec w docsetDir (crawlStart host packages) turns = some st →
      st.counter = pending st.units ∧
      pending st.units ≤ 10 ∧
      (st.sched = [] →
        st.units.map (fun u => (u.name, u.url)) =
          packages.map (fun q => (strings.TrimRight q '/', host ++ str "/pkg/" ++ q)) ∧
        ∀ (k : Nat) (u : Running), st.units[k]? = some u →
          u.todo = [] ∧
          u.did = (grabPackage (w k) docsetDir u.name u.url).2 ∧
          1 ≤ attempts u.did ∧ attempts u.did ≤ 5 ∧
          u.did.getLast? = some .done ∧ u.did.count .done = 1) ∧
      ∃ more st1, exec w docsetDir st more = some st1 ∧ st1.sched = [] := by
  have hprefix : ∀ pre, pre <+: grabPackages host packages → outstanding pre ≤ 10 :=
    fun pre hpre => outstanding_foldl_loop host packages 0 (by decide) pre hpre
  refine ⟨?_, launched_grabPackages host packages, trimRight_slash, hprefix,
    outstanding_grabPackages host packages, ?_⟩
  · rw [grabPackages, batchSchedule, grabPackagesLoop_eq host packages 0 0 rfl]
    rfl
  · intro turns st hexec
    have hinv := exec_inv w docsetDir host packages turns _ st
      (crawlStart_inv w docsetDir host packages) hexec
    obtain ⟨turns1, st1, h1, h2, _⟩ := exec_returns w docsetDir host packages _ st hinv rfl
    obtain ⟨pre, hpre, hl, hok, hc, hout⟩ := hinv
    refine ⟨hc, ?_, ?_, turns1, st1, h1, h2⟩
    · have := hprefix pre ⟨st.sched, hpre⟩
      omega
    · intro hs
      rw [hs, List.append_nil] at hpre
      subst hpre
      rw [outstanding_grabPackages] at hout
      have hzero : pending st.units = 0 := by omega
      refine ⟨by rw [← hl, launched_grabPackages], ?_⟩
      intro k u hk
      have htodo : u.todo = [] :=
        all_done_of_pending st.units hzero u (List.getElem?_mem hk)
      have hdid := unitsOk_getElem w docsetDir 0 st.units hok k u hk
      rw [htodo, List.append_nil, Nat.zero_add] at hdid
      obtain ⟨⟨body, hbody, hnd⟩, hlow, hhigh⟩ := grabPackage_shape (w k) docsetDir u.name u.url
      refine ⟨htodo, hdid, by rw [hdid]; exact hlow, by rw [hdid]; exact hhigh, ?_, ?_⟩
      · rw [hdid, hbody]
        simp
      · rw [hdid, hbody, List.count_append, List.count_eq_zero.mpr hnd]
        rfl

/-- A run of C2: with the filter `a/*`, the package `github.com/c/d/` of the listing
is not returned and no unit is started for it. -/
theorem getPackages_filtered_witness :
    str "github.com/c/d/" ∉
      [some (str "github.com/a/b/"), some (str "fmt/"), none,
        some (str "github.com/c/d/")].reduceOption.filter
        (fun name => decide (str "." <:+: name) && matchFilter name [str "a/*"]) := by
  obtain ⟨packages, _, hp, _, h⟩ := getPackages_filtered
    [some (str "github.com/a/b/"), some (str "fmt/"), none, some (str "github.com/c/d/")]
    [str "a/*"] (str "http://localhost:6060")
  rw [← hp]
  exact (h (str "github.com/c/d/") (by decide) (by decide)).1

/-- A run of C6: two targets, started one after the other; their units run
interleaved, the second one first; then `grabPackages` passes its last wait, and
both units have run `grabPackage` to the end, with one attempt each. -/
theorem grabPackages_batches_witness :
    launched (grabPackages (str "http://h") twoTargets) =
      [(str "a.b/c", str "http://h/pkg/a.b/c/"), (str "d.e", str "http://h/pkg/d.e/")] ∧
    ∃ st, exec (fun _ _ => pageAttempt (str "Directory listing") none) (str "GoDoc.docset")
        (crawlStart (str "http://h") twoTargets) twoTargetsTurns = some st ∧
      st.sched = [] ∧ st.counter = 0 ∧
      st.units.map (fun u => (u.name, attempts u.did, u.todo)) =
        [(str "a.b/c", 1, []), (str "d.e", 1, [])] ∧
      ∀ (k : Nat) (u : Running), st.units[k]? = some u →
        u.todo = [] ∧
        u.did = (grabPackage ((fun _ _ => pageAttempt (str "Directory listing") none) k)
          (str "GoDoc.docset") u.name u.url).2 ∧
        1 ≤ attempts u.did ∧ attempts u.did ≤ 5 ∧
        u.did.getLast? = some .done ∧ u.did.count .done = 1 := by
  refine ⟨by decide, ?_⟩
  cases h : exec (fun _ _ => pageAttempt (str "Directory listing") none) (str "GoDoc.docset")
      (crawlStart (str "http://h") twoTargets) twoTargetsTurns with
  | none =>
    exfalso
    revert h
    decide
  | some st =>
    have hsched : st.sched = [] := by
      have h1 : (exec (fun _ _ => pageAttempt (str "Directory listing") none)
          (str "GoDoc.docset") (crawlStart (str "http://h") twoTargets)
          twoTargetsTurns).map (fun s => s.sched) = some [] := by decide
      rw [h] at h1
      exact Option.some.inj h1
    have hrest : (st.counter, st.units.map (fun u => (u.name, attempts u.did, u.todo))) =
        (0, [(str "a.b/c", 1, []), (str "d.e", 1, [])]) := by
      have h1 : (exec (fun _ _ => pageAttempt (str "Directory listing") none)
          (str "GoDoc.docset") (crawlStart (str "http://h") twoTargets)
          twoTargetsTurns).map
            (fun s => (s.counter, s.units.map (fun u => (u.name, attempts u.did, u.todo)))) =
          some (0, [(str "a.b/c", 1, []), (str "d.e", 1, [])]) := by decide
      rw [h] at h1
      exact Option.some.inj h1
    exact ⟨st, rfl, hsched, (Prod.mk.inj hrest).1, (Prod.mk.inj hrest).2,
      ((grabPackages_batches (fun _ _ => pageAttempt (str "Directory listing") none)
        (str "GoDoc.docset") (str "http://h") twoTargets).2.2.2.2.2 twoTargetsTurns st
        h).2.2.1 hsched |>.2⟩

/-- C3, as stated, fails: when every attempt fails at the fetch step, `grabPackage`
does not wait 4 times. -/
theorem grabPackage_four_waits_counterexample :
    (∀ i : Nat, ((fun _ => refusedAttempt) i).get = some (str "connection refused")) ∧
    ¬ ((grabPackage (fun _ => refusedAttempt) (str "GoDoc.docset") (str "a.b/c")
        (str "http://h/pkg/a.b/c/")).2.count (Event.sleep 2) = 4) :=
  ⟨fun _ => rfl, by decide⟩

/-- C3, amended: when every attempt of `grabPackage` fails at the fetch step, the unit
makes exactly 5 attempts and waits 2 seconds after each of them, the last one
too (5 waits); the outcome it keeps is the failure of the 5th attempt, and
nothing is inserted into the index. -/
theorem grabPackage_always_failing (w : Nat → Attempt) (docsetDir packageName url : Str)
    (e : Nat → Error) (h : ∀ i, (w i).get = some (e i)) :
    grabPackage w docsetDir packageName url =
      (some ⟨packageName, false, some (e 4)⟩,
        [.httpGet url, .sleep 2, .httpGet url, .sleep 2, .httpGet url, .sleep 2,
          .httpGet url, .sleep 2, .httpGet url, .sleep 2,
          .print (some ⟨packageName, false, some (e 4)⟩), .done]) ∧
    (grabPackage w docsetDir packageName url).2.count (Event.httpGet url) = 5 ∧
    (grabPackage w docsetDir packageName url).2.count (Event.sleep 2) = 5 ∧
    (∀ name, Event.writeInsert name ∉ (grabPackage w docsetDir packageName url).2) := by
  rw [grabPackage_all_refused w docsetDir packageName url e h]
  refine ⟨rfl, ?_, ?_, ?_⟩
  · simp [List.count_cons]
  · simp [List.count_cons]
  · intro name
    simp

/-- A run of C3: five refused fetches, five waits. -/
theorem grabPackage_always_failing_witness :
    (grabPackage (fun _ => refusedAttempt) (str "GoDoc.docset") (str "a.b/c")
      (str "http://h/pkg/a.b/c/")).2.count (Event.sleep 2) = 5 :=
  (grabPackage_always_failing (fun _ => refusedAttempt) (str "GoDoc.docset") (str "a.b/c")
    (str "http://h/pkg/a.b/c/") (fun _ => str "connection refused") (fun _ => rfl)).2.2.1

/-- C4: for every page that is fetched and parsed, `tryGrabPackage` sets `IsPackage`
exactly when the trimmed text of the first `h1` starts with `Package`; when it
does not, the attempt returns no error, writes no document and inserts nothing,
and `grabPackage` stops after this one attempt without a wait. -/
theorem tryGrabPackage_classifies (w : Nat → Attempt) (docsetDir packageName url buf : Str)
    (doc : Document) (hget : (w 0).get = none) (hread : (w 0).readAll = .ok buf)
    (hparse : (w 0).parse buf = .ok doc) :
    ((tryGrabPackage (w 0) docsetDir packageName url).1.IsPackage = true ↔
      str "Package" <+: strings.TrimSpace (doc.h1.headD [])) ∧
    (¬ str "Package" <+: strings.TrimSpace (doc.h1.headD []) →
      tryGrabPackage (w 0) docsetDir packageName url =
        (⟨packageName, false, none⟩, [.httpGet url]) ∧
      grabPackage w docsetDir packageName url =
        (some ⟨packageName, false, none⟩,
          [.httpGet url, .print (some ⟨packageName, false, none⟩), .done])) := by
  have key := tryGrabPackage_parsed (w 0) docsetDir packageName url buf doc hget hread hparse
  by_cases hp : strings.HasPrefix (strings.TrimSpace (doc.h1.headD [])) (str "Package") = true
  · have hp' := (hasPrefix_iff _ _).mp hp
    refine ⟨?_, fun hn => absurd hp' hn⟩
    rw [key, hp]
    simp only [Bool.not_true, Bool.false_eq_true, if_false, hp', iff_true]
    split
    · rfl
    · split <;> rfl
  · have hp' : ¬ str "Package" <+: strings.TrimSpace (doc.h1.headD []) :=
      fun hh => hp ((hasPrefix_iff _ _).mpr hh)
    rw [Bool.not_eq_true] at hp
    have key' : tryGrabPackage (w 0) docsetDir packageName url =
        (⟨packageName, false, none⟩, [.httpGet url]) := by
      rw [key, hp]
      rfl
    refine ⟨?_, fun _ => ⟨key', ?_⟩⟩
    · rw [key']
      simp only [Bool.false_eq_true, hp']
    · rw [grabPackage_first_ok w docsetDir packageName url (by rw [key']), key']
      rfl

/-- A run of C4: the heading `Package foo` makes a package, the heading
`Directory listing` makes a skip after one attempt, without error or wait. -/
theorem tryGrabPackage_classifies_witness :
    (tryGrabPackage (pageAttempt (str "  Package foo\n") none) (str "GoDoc.docset")
      (str "a.b/foo") (str "http://h/pkg/a.b/foo/")).1.IsPackage = true ∧
    grabPackage (fun _ => pageAttempt (str "Directory listing") none) (str "GoDoc.docset")
        (str "a.b") (str "http://h/pkg/a.b/") =
      (some ⟨str "a.b", false, none⟩,
        [.httpGet (str "http://h/pkg/a.b/"), .print (some ⟨str "a.b", false, none⟩), .done]) :=
  ⟨((tryGrabPackage_classifies (fun _ => pageAttempt (str "  Package foo\n") none)
      (str "GoDoc.docset") (str "a.b/foo") (str "http://h/pkg/a.b/foo/") (str "<html>") _
      rfl rfl rfl).1).mpr (by decide),
    ((tryGrabPackage_classifies (fun _ => pageAttempt (str "Directory listing") none)
      (str "GoDoc.docset") (str "a.b") (str "http://h/pkg/a.b/") (str "<html>") _
      rfl rfl rfl).2 (by decide)).2⟩

/-- C10, on the code: when every step up to the index insertion succeeds and
`info.WriteInsert` returns an error, `tryGrabPackage` returns an outcome without
error, and `grabPackage` stops after this one attempt without a wait. -/
theorem tryGrabPackage_drops_insert_error (w : Nat → Attempt)
    (docsetDir packageName url buf newHTML : Str) (doc : Document) (err : Error)
    (hget : (w 0).get = none) (hread : (w 0).readAll = .ok buf)
    (hparse : (w 0).parse buf = .ok doc)
    (hpkg : str "Package" <+: strings.TrimSpace (doc.h1.headD []))
    (hhtml : (w 0).outerHtml (replaceLinks doc (getDocumentPath packageName)).1 = .ok newHTML)
    (hwrite : (writeFile (w 0).fs docsetDir (getDocumentPath packageName) newHTML).1 = none)
    (_hinsert : (w 0).writeInsert = some err) :
    (tryGrabPackage (w 0) docsetDir packageName url).1 = ⟨packageName, true, none⟩ ∧
    grabPackage w docsetDir packageName url =
      (some ⟨packageName, true, none⟩,
        .httpGet url :: (replaceLinks doc (getDocumentPath packageName)).2 ++
          (writeFile (w 0).fs docsetDir (getDocumentPath packageName) newHTML).2 ++
          [.writeInsert packageName, .print (some ⟨packageName, true, none⟩), .done]) ∧
    (grabPackage w docsetDir packageName url).2.count (Event.httpGet url) = 1 ∧
    (grabPackage w docsetDir packageName url).2.count (Event.sleep 2) = 0 := by
  have key := tryGrabPackage_parsed (w 0) docsetDir packageName url buf doc hget hread hparse
  rw [(hasPrefix_iff _ _).mpr hpkg] at key
  simp only [Bool.not_true, Bool.false_eq_true, if_false, hhtml, hwrite] at key
  have hmid := written_no_get_no_sleep doc (w 0).fs docsetDir (getDocumentPath packageName) newHTML
  have hget0 : List.count (Event.httpGet url)
      ((replaceLinks doc (getDocumentPath packageName)).2 ++
        (writeFile (w 0).fs docsetDir (getDocumentPath packageName) newHTML).2) = 0 :=
    List.count_eq_zero.mpr (fun hm => (hmid _ hm).1 url rfl)
  have hsleep0 : List.count (Event.sleep 2)
      ((replaceLinks doc (getDocumentPath packageName)).2 ++
        (writeFile (w 0).fs docsetDir (getDocumentPath packageName) newHTML).2) = 0 :=
    List.count_eq_zero.mpr (fun hm => (hmid _ hm).2 2 rfl)
  have htrace : grabPackage w docsetDir packageName url =
      (some ⟨packageName, true, none⟩,
        .httpGet url :: (replaceLinks doc (getDocumentPath packageName)).2 ++
          (writeFile (w 0).fs docsetDir (getDocumentPath packageName) newHTML).2 ++
          [.writeInsert packageName, .print (some ⟨packageName, true, none⟩), .done]) := by
    rw [grabPackage_first_ok w docsetDir packageName url (by rw [key]), key]
    simp only [List.cons_append, List.append_assoc, List.singleton_append, List.nil_append]
  rw [List.count_append, Nat.add_eq_zero_iff] at hget0 hsleep0
  refine ⟨by rw [key], htrace, ?_, ?_⟩
  · rw [htrace]
    simp [List.count_cons, List.count_append, hget0.1, hget0.2]
  · rw [htrace]
    simp [List.count_cons, List.count_append, hsleep0.1, hsleep0.2]

/-- A run of C10: the index insertion fails with `database is locked`, and the
outcome that `grabPackage` keeps has no error. -/
theorem tryGrabPackage_drops_insert_error_witness :
    (pageAttempt (str "Package foo") (some (str "database is locked"))).writeInsert =
      some (str "database is locked") ∧
    (grabPackage (fun _ => pageAttempt (str "Package foo") (some (str "database is locked")))
      (str "GoDoc.docset") (str "a.b/foo") (str "http://h/pkg/a.b/foo/")).1 =
      some ⟨str "a.b/foo", true, none⟩ :=
  ⟨rfl, (tryGrabPackage_drops_insert_error
    (fun _ => pageAttempt (str "Package foo") (some (str "database is locked")))
    (str "GoDoc.docset") (str "a.b/foo") (str "http://h/pkg/a.b/foo/") (str "<html>")
    (str "<html>") _ (str "database is locked") rfl rfl rfl (by decide) rfl rfl rfl).2.1 ▸ rfl⟩

/-- C7, on the code: when the fetch of a leaf file fails with a nil response, the
closure of `grabDirectory` prints the error and then panics; the rows after it
are not handled, whatever they are, and the call of `grabDirectory` ends in the
panic. -/
theorem grabDirectory_leaf_error_panics (w : Web) (docsetDir host relPath href : Str)
    (row : Row) (before rows : List Row) (events : List Event) (e : Error)
    (hchildren : 2 ≤ row.children) (hhref : row.href = some href)
    (hleaf : str ".css" <:+ href ∨ str ".js" <:+ href)
    (hget : w.get (host ++ str "/" ++ relPath ++ href) = (none, some e))
    (hbefore : grabDirectoryRows w docsetDir host relPath before = (events, .returned))
    (hlisting : w.listing (host ++ str "/" ++ relPath) = .ok (before ++ row :: rows)) :
    grabDirectoryRows w docsetDir host relPath (before ++ row :: rows) =
      (events ++ [.httpGet (host ++ str "/" ++ relPath ++ href), .println e], .panicked) ∧
    grabDirectory w docsetDir host relPath =
      (.httpGet (host ++ str "/" ++ relPath) ::
        (events ++ [.httpGet (host ++ str "/" ++ relPath ++ href), .println e]) ++ [.done],
        .panicked) := by
  have hrow := grabDirectoryRow_refused w docsetDir host relPath href row e hchildren hhref
    hleaf hget
  have hrows : grabDirectoryRows w docsetDir host relPath (row :: rows) =
      ([.httpGet (host ++ str "/" ++ relPath ++ href), .println e], .panicked) := by
    rw [grabDirectoryRows, hrow]
  have hall := grabDirectoryRows_append w docsetDir host relPath before (row :: rows) events
    hbefore
  rw [hrows] at hall
  refine ⟨hall, ?_⟩
  unfold grabDirectory
  rw [hlisting]
  simp only [hall]

/-- A run of C7: the fetch of `style.css` is refused; the mirror panics after it
has printed the error, and `godocs.js` and `js/`, the rows after it, are not
handled. -/
theorem grabDirectory_leaf_error_panics_witness :
    (assetWeb true).get (str "http://h/lib/godoc/style.css") =
      (none, some (str "connection refused")) ∧
    grabDirectory (assetWeb true) (str "GoDoc.docset") (str "http://h") (str "lib/godoc/") =
      ([.httpGet (str "http://h/lib/godoc/"), .httpGet (str "http://h/lib/godoc/style.css"),
        .println (str "connection refused"), .done], .panicked) :=
  ⟨rfl, (grabDirectory_leaf_error_panics (assetWeb true) (str "GoDoc.docset") (str "http://h")
    (str "lib/godoc/") (str "style.css") ⟨2, some (str "style.css")⟩ [⟨1, some (str "..")⟩]
    [⟨2, some (str "godocs.js")⟩, ⟨2, some (str "js/")⟩] [] (str "connection refused")
    (by decide) rfl (Or.inl (by decide)) rfl rfl rfl).2⟩

/-- C8, on the code: for a row whose `href` does not end in `.css` or `.js`, the
closure of `grabDirectory` starts `grabDirectory(wg, host, url)` with
`url = host + "/" + relPath + href`, and that call requests the listing at
`host + "/" + host + "/" + relPath + href`. -/
theorem grabDirectory_recursion_path (w : Web) (docsetDir host relPath href : Str) (row : Row)
    (hchildren : 2 ≤ row.children) (hhref : row.href = some href)
    (hcss : ¬ str ".css" <:+ href) (hjs : ¬ str ".js" <:+ href) :
    grabDirectoryRow w docsetDir host relPath row =
      ([.goGrabDirectory (host ++ str "/" ++ relPath ++ href)], .returned) ∧
    (grabDirectory w docsetDir host (host ++ str "/" ++ relPath ++ href)).1.head? =
      some (.httpGet (host ++ str "/" ++ (host ++ str "/" ++ relPath ++ href))) :=
  ⟨grabDirectoryRow_directory w docsetDir host relPath href row hchildren hhref hcss hjs,
    grabDirectory_head w docsetDir host _⟩

/-- A run of C8: the walk from `lib/godoc/` starts a call for the directory `js/`
with the path `http://h/lib/godoc/js/`; the call requests
`http://h/http://h/lib/godoc/js/`, which is no listing, and `js/app.js` is neither
fetched nor written. -/
theorem grabDirectory_recursion_path_witness :
    grabDirectoryRow (assetWeb false) (str "GoDoc.docset") (str "http://h") (str "lib/godoc/")
        ⟨2, some (str "js/")⟩ =
      ([.goGrabDirectory (str "http://h/lib/godoc/js/")], .returned) ∧
    (grabLib (assetWeb false) (str "GoDoc.docset") (str "http://h") 3).map
        (fun call => (call.1, call.2.1.filter (fun ev =>
          match ev with
          | .httpGet _ => true
          | _ => false))) =
      [(str "lib/godoc/",
          [.httpGet (str "http://h/lib/godoc/"), .httpGet (str "http://h/lib/godoc/style.css"),
            .httpGet (str "http://h/lib/godoc/godocs.js")]),
        (str "http://h/lib/godoc/js/", [.httpGet (str "http://h/http://h/lib/godoc/js/")])] :=
  ⟨(grabDirectory_recursion_path (assetWeb false) (str "GoDoc.docset") (str "http://h")
      (str "lib/godoc/") (str "js/") ⟨2, some (str "js/")⟩ (by decide) rfl (by decide)
      (by decide)).1, by decide⟩

/-- C5: for every package name that is a clean relative path without an element
`..`, and every server-rooted stylesheet `href` ending in `.css` (script `src`
ending in `.js`), `replaceLinks` sets the reference to
`Rel(Dir(getDocumentPath(name)), href without leading slashes)`, which is computed
without error, and joining that reference to the directory of the document gives
back the old path without its leading slashes, in the spelling of `path.Clean`:
that very string whenever it is clean. -/
theorem replaceLinks_relative (doc : Document) (packageName href : Str) (i : Nat)
    (hname : cleanRelativeName packageName) (_hrooted : href.head? = some '/') :
    (doc.links[i]? = some (some href) → str ".css" <:+ href →
      ∃ newRef,
        filepath.Rel (path.Dir (getDocumentPath packageName)) (strings.TrimLeft href '/') =
          .ok newRef ∧
        (replaceLinks doc (getDocumentPath packageName)).1.links[i]? = some (some newRef) ∧
        path.Join [path.Dir (getDocumentPath packageName), newRef] =
          path.Clean (strings.TrimLeft href '/') ∧
        (path.Clean (strings.TrimLeft href '/') = strings.TrimLeft href '/' →
          path.Join [path.Dir (getDocumentPath packageName), newRef] =
            strings.TrimLeft href '/')) ∧
    (doc.scripts[i]? = some (some href) → str ".js" <:+ href →
      ∃ newRef,
        filepath.Rel (path.Dir (getDocumentPath packageName)) (strings.TrimLeft href '/') =
          .ok newRef ∧
        (replaceLinks doc (getDocumentPath packageName)).1.scripts[i]? = some (some newRef) ∧
        path.Join [path.Dir (getDocumentPath packageName), newRef] =
          path.Clean (strings.TrimLeft href '/') ∧
        (path.Clean (strings.TrimLeft href '/') = strings.TrimLeft href '/' →
          path.Join [path.Dir (getDocumentPath packageName), newRef] =
            strings.TrimLeft href '/')) := by
  constructor
  · intro hi hsuf
    obtain ⟨newRef, h1, h2, h3⟩ := replaceLink_ok packageName href (str ".css") hname.2.2 hsuf
      ⟨'.', by decide, by decide⟩
    refine ⟨newRef, h1, ?_, h3, fun hc => hc ▸ h3⟩
    rw [replaceLinks_links, List.getElem?_map, hi, Option.map_some', h2]
  · intro hi hsuf
    obtain ⟨newRef, h1, h2, h3⟩ := replaceLink_ok packageName href (str ".js") hname.2.2 hsuf
      ⟨'.', by decide, by decide⟩
    refine ⟨newRef, h1, ?_, h3, fun hc => hc ▸ h3⟩
    rw [replaceLinks_scripts, List.getElem?_map, hi, Option.map_some', h2]

/-- A run of C5: in the document `pkg/foo/index.html` the stylesheet
`/lib/godoc/style.css` becomes `../../lib/godoc/style.css`, which joined to
`pkg/foo` is `lib/godoc/style.css`, the old path without its leading slash. -/
theorem replaceLinks_relative_witness :
    getDocumentPath (str "foo") = str "pkg/foo/index.html" ∧
    path.Dir (getDocumentPath (str "foo")) = str "pkg/foo" ∧
    (replaceLinks ⟨[str "Package foo"], [some (str "/lib/godoc/style.css")], []⟩
      (getDocumentPath (str "foo"))).1.links = [some (str "../../lib/godoc/style.css")] ∧
    path.Join [str "pkg/foo", str "../../lib/godoc/style.css"] = str "lib/godoc/style.css" ∧
    ∃ newRef,
      filepath.Rel (path.Dir (getDocumentPath (str "foo")))
          (strings.TrimLeft (str "/lib/godoc/style.css") '/') = .ok newRef ∧
        (replaceLinks ⟨[str "Package foo"], [some (str "/lib/godoc/style.css")], []⟩
          (getDocumentPath (str "foo"))).1.links[0]? = some (some newRef) ∧
        path.Join [path.Dir (getDocumentPath (str "foo")), newRef] =
          path.Clean (strings.TrimLeft (str "/lib/godoc/style.css") '/') ∧
        (path.Clean (strings.TrimLeft (str "/lib/godoc/style.css") '/') =
            strings.TrimLeft (str "/lib/godoc/style.css") '/' →
          path.Join [path.Dir (getDocumentPath (str "foo")), newRef] =
            strings.TrimLeft (str "/lib/godoc/style.css") '/') :=
  ⟨by decide, by decide, by decide, by decide,
    (replaceLinks_relative ⟨[str "Package foo"], [some (str "/lib/godoc/style.css")], []⟩
      (str "foo") (str "/lib/godoc/style.css") 0 (by decide) rfl).1 rfl (by decide)⟩

/-- C9, as stated, fails: with the output directory `/tmp` and the name `GoDoc` the
icon is created at `/tmp/GoDoc.docset/icon.png`, not in the directory
`/tmp/GoDoc.docset/Contents/Resources` of the index file. -/
theorem writeIcon_path_counterexample :
    writeIconPath (docsetDirOf (str "/tmp") (str "GoDoc")) = str "/tmp/GoDoc.docset/icon.png" ∧
    writeIconPath (docsetDirOf (str "/tmp") (str "GoDoc")) ≠
      str "/tmp/GoDoc.docset/Contents/Resources/icon.png" ∧
    createDBPath (docsetDirOf (str "/tmp") (str "GoDoc")) =
      str "/tmp/GoDoc.docset/Contents/Resources/docSet.dsidx" ∧
    (writeIcon okFileSystem (docsetDirOf (str "/tmp") (str "GoDoc")) (.ok (str "png"))).2 =
      [.mkdirAll (str "/tmp/GoDoc.docset"), .create (str "/tmp/GoDoc.docset/icon.png"),
        .copy (str "/tmp/GoDoc.docset/icon.png") (str "png")] := by
  decide

/-- C9, amended: for every output directory and docset name, the path at which
`writeIcon` creates the icon file is `<docset root>/icon.png`, the file `icon.png`
directly in the (cleaned) docset root, where the docset root is the output
directory (with a `/` appended when it is not empty and does not end in `/`)
followed by the docset name and `.docset`. -/
theorem writeIcon_path (output name : Str) (fs : FileSystem) (icon : Except Error Str) :
    docsetDirOf output name =
      (if output ≠ [] ∧ ¬ str "/" <:+ output then output ++ str "/" else output) ++ name ++
        str ".docset" ∧
    writeIconPath (docsetDirOf output name) =
      path.Clean (docsetDirOf output name) ++ str "/icon.png" ∧
    ∀ q, Event.create q ∈ (writeIcon fs (docsetDirOf output name) icon).2 →
      q = path.Clean (docsetDirOf output name) ++ str "/icon.png" := by
  refine ⟨docsetDirOf_eq output name, writeIconPath_eq output name, ?_⟩
  intro q hq
  rw [← writeIconPath_eq]
  unfold writeIcon at hq
  cases icon with
  | error err => simp at hq
  | ok content =>
    simp only at hq
    rcases createAndCopy_events _ _ _ _ hq with h | h | h
    · exact absurd h (by simp)
    · exact Event.create.inj h
    · exact absurd h (by simp)

/-- A run of C9: the icon of the docset `GoDoc` under `/tmp` is created at
`/tmp/GoDoc.docset/icon.png`. -/
theorem writeIcon_path_witness :
    str "/tmp/GoDoc.docset/icon.png" =
      path.Clean (docsetDirOf (str "/tmp") (str "GoDoc")) ++ str "/icon.png" :=
  (writeIcon_path (str "/tmp") (str "GoDoc") okFileSystem (.ok (str "png"))).2.2
    (str "/tmp/GoDoc.docset/icon.png") (by decide)

end GoDocDash
